import Mathlib

/-!
Surface-reflectance materials of the path tracer (`src/pathtracer/material.cpp`)

A shallow embedding of the four material variants (`Diffuse`, `BlinnPhong`,
`BlinnPhongMetal`, `LinearBlend`) and of their two operations `f` and
`sample_wi`.

* `float` is an arbitrary linearly ordered field `K` (ideal arithmetic, no
  rounding).  Every definition is computable, so it can be run at `K = ℚ`.
* The numeric library (`M_PI`, `pow`, `sqrt`, `cos`, `sin`, `inversesqrt`), the
  helpers of `sampling.h` (`sameHemisphere`, `perpendicular`, `randf`,
  `cosineSampleHemisphere`) and IEEE division are not part of
  `material.cpp`; they are the fields of `Env`.
* Division is `Env.div`: a theorem that needs a quotient asks for
  `Env.ExactDiv` (the quotient of the field on a NONZERO divisor) and so never
  relies on the value of a division by zero.
* `sample_wi` writes through the references `wi` and `p` and draws from the
  process-wide random source: the embedding passes the prior content of both
  slots and the state of the random source in, and returns their content
  after the call together with the returned value.
-/

namespace pathtracer

/-- A `glm::vec3` over the scalar type `K`. -/
@[ext]
structure Vec3 (K : Type) where
  x : K
  y : K
  z : K
deriving DecidableEq, Repr

namespace Vec3

variable {K : Type}

/-- The constructor `vec3(s)`: the scalar on every channel. -/
def splat (s : K) : Vec3 K := ⟨s, s, s⟩

instance [Zero K] : Zero (Vec3 K) := ⟨splat 0⟩

/-- Vector sum `a + b`. -/
instance [Add K] : Add (Vec3 K) := ⟨fun a b => ⟨a.x + b.x, a.y + b.y, a.z + b.z⟩⟩

/-- Vector difference `a - b`. -/
instance [Sub K] : Sub (Vec3 K) := ⟨fun a b => ⟨a.x - b.x, a.y - b.y, a.z - b.z⟩⟩

/-- Componentwise product `a * b` of two vectors. -/
instance [Mul K] : Mul (Vec3 K) := ⟨fun a b => ⟨a.x * b.x, a.y * b.y, a.z * b.z⟩⟩

/-- Scalar times vector, `s * v`. -/
instance [Mul K] : HMul K (Vec3 K) (Vec3 K) := ⟨fun s v => ⟨s * v.x, s * v.y, s * v.z⟩⟩

/-- Vector times scalar, `v * s`. -/
instance [Mul K] : HMul (Vec3 K) K (Vec3 K) := ⟨fun v s => ⟨v.x * s, v.y * s, v.z * s⟩⟩

/-- The scalar product `dot(a, b)`. -/
def dot [Add K] [Mul K] (a b : Vec3 K) : K := a.x * b.x + a.y * b.y + a.z * b.z

/-- The vector product `cross(a, b)`. -/
def cross [Sub K] [Mul K] (a b : Vec3 K) : Vec3 K :=
  ⟨a.y * b.z - b.y * a.z, a.z * b.x - b.z * a.x, a.x * b.y - b.x * a.y⟩

/-- The vector library's `reflect(I, N) = I - N * dot(N, I) * 2`. -/
def reflect [Add K] [Sub K] [Mul K] [OfNat K 2] (I N : Vec3 K) : Vec3 K :=
  I - N * dot N I * (2 : K)

end Vec3

/-- The collaborators of `material.cpp` that live outside it, over the scalar
type `K` and the state `R` of the random source. -/
structure Env (K R : Type) where
  /-- The constant `M_PI`. -/
  pi : K
  /-- The division of two floats; see `Env.ExactDiv`. -/
  div : K → K → K
  /-- The function `pow(base, exponent)`. -/
  pow : K → K → K
  /-- The function `sqrt`. -/
  sqrt : K → K
  /-- The function `cos`. -/
  cos : K → K
  /-- The function `sin`. -/
  sin : K → K
  /-- The vector library's `inversesqrt`, which `normalize` multiplies by. -/
  inversesqrt : K → K
  /-- The helper `sameHemisphere(i, o, n)` of `sampling.h`. -/
  sameHemisphere : Vec3 K → Vec3 K → Vec3 K → Bool
  /-- The helper `perpendicular(v)` of `sampling.h`. -/
  perpendicular : Vec3 K → Vec3 K
  /-- One draw `randf()`: the value and the next state of the source. -/
  randf : R → K × R
  /-- One draw `cosineSampleHemisphere()`: the local sample and the next state. -/
  cosineSampleHemisphere : R → Vec3 K × R

namespace Env

variable {K R : Type}

/-- The vector library's `normalize(v) = v * inversesqrt(dot(v, v))`. -/
def normalize [Add K] [Mul K] (env : Env K R) (v : Vec3 K) : Vec3 K :=
  v * env.inversesqrt (Vec3.dot v v)

/-- Division is the field's quotient whenever the divisor is not zero. -/
def ExactDiv [Div K] [Zero K] (env : Env K R) : Prop :=
  ∀ a b : K, b ≠ 0 → env.div a b = a / b

/-- At `x` the function `inversesqrt` returns a positive number whose square
times `x` is one. -/
def InvSqrtAt [Mul K] [One K] [Zero K] [LT K] (env : Env K R) (x : K) : Prop :=
  0 < env.inversesqrt x ∧ env.inversesqrt x * env.inversesqrt x * x = 1

end Env

/-- A material instance.  `refraction_layer` is the pointer that may be `NULL`;
`bsdf0` and `bsdf1` are the two sub-materials of a blend. -/
inductive Material (K : Type) where
  | Diffuse (color : Vec3 K)
  | BlinnPhong (shininess R0 : K) (refraction_layer : Option (Material K))
  | BlinnPhongMetal (color : Vec3 K) (shininess R0 : K)
      (refraction_layer : Option (Material K))
  | LinearBlend (w : K) (bsdf0 bsdf1 : Material K)

section Code

variable {K R : Type} [LinearOrderedField K]

open Vec3

/-- The Fresnel term `R0 + (1 - R0) * pow(1 - whdotwi, 5)` of both lobes. -/
def BlinnPhong.F (env : Env K R) (R0 whdotwi : K) : K :=
  R0 + (1 - R0) * env.pow (1 - whdotwi) 5

/-- The microfacet distribution `((s + 2) / (2 * M_PI)) * pow(ndotwh, s)`. -/
def BlinnPhong.D (env : Env K R) (s ndotwh : K) : K :=
  env.div (s + 2) (2 * env.pi) * env.pow ndotwh s

/-- The masking term `A = 2 * ndotwh * ndotwo / wodotwh`. -/
def BlinnPhong.A (env : Env K R) (ndotwh ndotwo wodotwh : K) : K :=
  env.div (2 * ndotwh * ndotwo) wodotwh

/-- The masking term `B = 2 * ndotwh * ndotwi / wodotwh`. -/
def BlinnPhong.B (env : Env K R) (ndotwh ndotwi wodotwh : K) : K :=
  env.div (2 * ndotwh * ndotwi) wodotwh

/-- The shadowing/masking function `G = min(1, min(A, B))`. -/
def BlinnPhong.G (env : Env K R) (ndotwh ndotwo ndotwi wodotwh : K) : K :=
  min 1 (min (BlinnPhong.A env ndotwh ndotwo wodotwh) (BlinnPhong.B env ndotwh ndotwi wodotwh))

/-- The body of `BlinnPhong::reflection_brdf` for the fields `shininess`, `R0`. -/
def BlinnPhong.reflection_brdf (env : Env K R) (shininess R0 : K) (wi wo n : Vec3 K) :
    Vec3 K :=
  let wh := env.normalize (wi + wo)
  let whdotwi := max 0 (dot wh wi)
  let ndotwh := max 0 (dot n wh)
  let ndotwi := max 0 (dot n wi)
  let ndotwo := max 0 (dot n wo)
  let wodotwh := max 0 (dot wo wh)
  let s := shininess
  let denom := 4 * ndotwo * ndotwi
  if denom ≤ 0 then splat 0
  else
    let F := BlinnPhong.F env R0 whdotwi
    let D := BlinnPhong.D env s ndotwh
    let G := BlinnPhong.G env ndotwh ndotwo ndotwi wodotwh
    let brdf := env.div (F * D * G) denom
    splat brdf

/-- The body of `Diffuse::f` for the field `color`. -/
def Diffuse.f (env : Env K R) (color : Vec3 K) (wi wo n : Vec3 K) : Vec3 K :=
  if dot wi n ≤ 0 then splat 0
  else if !env.sameHemisphere wi wo n then splat 0
  else env.div 1 env.pi * color

/-- The body of `BlinnPhongMetal::refraction_brdf`. -/
def BlinnPhongMetal.refraction_brdf (_wi _wo _n : Vec3 K) : Vec3 K :=
  splat 0

/-- The body of `BlinnPhongMetal::reflection_brdf` for the fields `color`,
`shininess`, `R0`. -/
def BlinnPhongMetal.reflection_brdf (env : Env K R) (color : Vec3 K) (shininess R0 : K)
    (wi wo n : Vec3 K) : Vec3 K :=
  BlinnPhong.reflection_brdf env shininess R0 wi wo n * color

mutual

/-- The virtual call `m->f(wi, wo, n)`.  `BlinnPhong::f` adds its two lobes,
`BlinnPhongMetal` inherits that `f` and supplies its own two lobes, and
`LinearBlend::f` mixes its sub-materials. -/
def Material.f (env : Env K R) : Material K → Vec3 K → Vec3 K → Vec3 K → Vec3 K
  | .Diffuse color, wi, wo, n => Diffuse.f env color wi wo n
  | .BlinnPhong shininess R0 refraction_layer, wi, wo, n =>
      BlinnPhong.reflection_brdf env shininess R0 wi wo n +
        BlinnPhong.refraction_brdf env R0 refraction_layer wi wo n
  | .BlinnPhongMetal color shininess R0 _, wi, wo, n =>
      BlinnPhongMetal.reflection_brdf env color shininess R0 wi wo n +
        BlinnPhongMetal.refraction_brdf wi wo n
  | .LinearBlend w bsdf0 bsdf1, wi, wo, n =>
      w * Material.f env bsdf0 wi wo n + (1 - w) * Material.f env bsdf1 wi wo n

/-- The body of `BlinnPhong::refraction_brdf` for the fields `R0` and
`refraction_layer` (`none` is the `NULL` pointer). -/
def BlinnPhong.refraction_brdf (env : Env K R) (R0 : K) :
    Option (Material K) → Vec3 K → Vec3 K → Vec3 K → Vec3 K
  | none, _, _, _ => splat 0
  | some layer, wi, wo, n =>
      let wh := env.normalize (wi + wo)
      let whdotwi := max 0 (dot wh wi)
      let F := BlinnPhong.F env R0 whdotwi
      let refractLayer := Material.f env layer wi wo n
      let brfd := (1 - F) * refractLayer
      brfd

end

/-- What a call of `sample_wi` leaves behind: the content of the output slots
`wi` and `p` after the call, the returned BRDF value and the state of the
random source. -/
structure Sample (K R : Type) where
  wi : Vec3 K
  p : K
  value : Vec3 K
  rng : R
deriving DecidableEq, Repr

/-- The body of `Diffuse::sample_wi` for the field `color`.  Both output slots
are assigned on every path, so their prior content is not an input. -/
def Diffuse.sample_wi (env : Env K R) (color : Vec3 K) (wo n : Vec3 K) (rng : R) :
    Sample K R :=
  let tangent := env.normalize (env.perpendicular n)
  let bitangent := env.normalize (cross tangent n)
  let sample := (env.cosineSampleHemisphere rng).1
  let rng1 := (env.cosineSampleHemisphere rng).2
  let wi := env.normalize (sample.x * tangent + sample.y * bitangent + sample.z * n)
  let p := if dot wi n ≤ 0 then 0 else env.div (max 0 (dot n wi)) env.pi
  ⟨wi, p, Diffuse.f env color wi wo n, rng1⟩

/-- The body of `LinearBlend::sample_wi`: `p = 0.0f; return vec3(0.0f);`. -/
def LinearBlend.sample_wi (wi : Vec3 K) (rng : R) : Sample K R :=
  ⟨wi, 0, splat 0, rng⟩

/-- The half-vector `wh` that `BlinnPhong::sample_wi` assembles from the draw
`u1` (azimuth) and the draw `u2` (polar angle). -/
def BlinnPhong.sampled_wh (env : Env K R) (shininess : K) (n : Vec3 K) (u1 u2 : K) : Vec3 K :=
  let tangent := env.normalize (env.perpendicular n)
  let bitangent := env.normalize (cross tangent n)
  let phi := 2 * env.pi * u1
  let cos_theta := env.pow u2 (env.div 1 (shininess + 1))
  let sin_theta := env.sqrt (max 0 (1 - cos_theta * cos_theta))
  env.normalize (sin_theta * env.cos phi * tangent +
    sin_theta * env.sin phi * bitangent +
    cos_theta * n)

/-- The value of the variable `p` that the reflect branch of
`BlinnPhong::sample_wi` declares (`float p = pwh / (4 * dot(wo, wh)); p *= 0.5f;`). -/
def BlinnPhong.reflect_local_p (env : Env K R) (shininess : K) (wo n wh : Vec3 K) : K :=
  let pwh := env.div ((shininess + 1) * env.pow (dot n wh) shininess) (2 * env.pi)
  let p := env.div pwh (4 * dot wo wh)
  p * (1 / 2)

/-- The state of the random source after the two draws that make up `wh`. -/
def BlinnPhong.rng_after_wh (env : Env K R) (rng : R) : R :=
  (env.randf (env.randf rng).2).2

/-- The half-vector that `BlinnPhong::sample_wi` draws from the source `rng`. -/
def BlinnPhong.drawn_wh (env : Env K R) (shininess : K) (n : Vec3 K) (rng : R) : Vec3 K :=
  BlinnPhong.sampled_wh env shininess n (env.randf rng).1 (env.randf (env.randf rng).2).1

/-- The third draw of `BlinnPhong::sample_wi`, compared with `0.5` to choose
the lobe. -/
def BlinnPhong.coin (env : Env K R) (rng : R) : K :=
  (env.randf (BlinnPhong.rng_after_wh env rng)).1

/-- The state of the random source after the coin is drawn. -/
def BlinnPhong.rng_after_coin (env : Env K R) (rng : R) : R :=
  (env.randf (BlinnPhong.rng_after_wh env rng)).2

mutual

/-- The virtual call `m->sample_wi(wi, wo, n, p)`, with the prior content of
the slots `wi` and `p` and the state of the random source as inputs.  The
result is `none` when the call dereferences a `NULL` `refraction_layer`. -/
def Material.sample_wi (env : Env K R) :
    Material K → Vec3 K → Vec3 K → Vec3 K → K → R → Option (Sample K R)
  | .Diffuse color, _, wo, n, _, rng => some (Diffuse.sample_wi env color wo n rng)
  | .BlinnPhong shininess R0 refraction_layer, wi, wo, n, p, rng =>
      BlinnPhong.sample_wi env shininess R0 (BlinnPhong.reflection_brdf env shininess R0)
        refraction_layer wi wo n p rng
  | .BlinnPhongMetal color shininess R0 refraction_layer, wi, wo, n, p, rng =>
      BlinnPhong.sample_wi env shininess R0
        (BlinnPhongMetal.reflection_brdf env color shininess R0)
        refraction_layer wi wo n p rng
  | .LinearBlend _ _ _, wi, _, _, _, rng => some (LinearBlend.sample_wi wi rng)

/-- The body of `BlinnPhong::sample_wi` for the fields `shininess`, `R0`,
`refraction_layer` and the virtual `reflection_brdf` of the instance.  In the
reflect branch the density is stored in a variable `p` declared there, which
hides the reference `p`: the slot keeps its prior content. -/
def BlinnPhong.sample_wi (env : Env K R) (shininess R0 : K)
    (reflection_brdf : Vec3 K → Vec3 K → Vec3 K → Vec3 K) :
    Option (Material K) → Vec3 K → Vec3 K → Vec3 K → K → R → Option (Sample K R)
  | refraction_layer, wi, wo, n, p, rng =>
      let u1 := (env.randf rng).1
      let rng1 := (env.randf rng).2
      let u2 := (env.randf rng1).1
      let rng2 := (env.randf rng1).2
      let wh := BlinnPhong.sampled_wh env shininess n u1 u2
      if dot wo n ≤ 0 then some ⟨wi, p, splat 0, rng2⟩
      else
        let u3 := (env.randf rng2).1
        let rng3 := (env.randf rng2).2
        if u3 < 1 / 2 then
          let wi1 := reflect wo wh
          let _p_local := BlinnPhong.reflect_local_p env shininess wo n wh
          some ⟨wi1, p, reflection_brdf wi1 wo n, rng3⟩
        else
          match refraction_layer with
          | none => none
          | some layer =>
              match Material.sample_wi env layer wi wo n p rng3 with
              | none => none
              | some s =>
                  let brdf := s.value
                  let p1 := s.p * (1 / 2)
                  let F := -R0 + (1 - R0) * env.pow (1 - |dot wh s.wi|) 5
                  some ⟨s.wi, p1, (1 - F) * brdf, s.rng⟩

end

end Code

/-! ## Ranges of the parameters -/

section Ranges

variable {K : Type} [LinearOrderedField K]

/-- Every channel of the vector is `≥ 0`. -/
def Vec3.Nonneg (v : Vec3 K) : Prop :=
  0 ≤ v.x ∧ 0 ≤ v.y ∧ 0 ≤ v.z

/-- Channel by channel, the first vector is at most the second. -/
def Vec3.Le (a b : Vec3 K) : Prop :=
  a.x ≤ b.x ∧ a.y ≤ b.y ∧ a.z ≤ b.z

mutual

/-- The parameters of every node of the tree are in range: `color ≥ 0` on every
channel, `0 ≤ R0 ≤ 1`, `shininess ≥ 0` and `0 ≤ w ≤ 1`. -/
def Material.ParamsInRange : Material K → Prop
  | .Diffuse color => color.Nonneg
  | .BlinnPhong shininess R0 refraction_layer =>
      0 ≤ shininess ∧ 0 ≤ R0 ∧ R0 ≤ 1 ∧ Material.LayerInRange refraction_layer
  | .BlinnPhongMetal color shininess R0 refraction_layer =>
      color.Nonneg ∧ 0 ≤ shininess ∧ 0 ≤ R0 ∧ R0 ≤ 1 ∧ Material.LayerInRange refraction_layer
  | .LinearBlend w bsdf0 bsdf1 =>
      0 ≤ w ∧ w ≤ 1 ∧ Material.ParamsInRange bsdf0 ∧ Material.ParamsInRange bsdf1

/-- The parameters of the layer, when there is one, are in range. -/
def Material.LayerInRange : Option (Material K) → Prop
  | none => True
  | some layer => Material.ParamsInRange layer

end

end Ranges

/-! ## A rational instance of the collaborators, for running the code -/

/-- The root of a natural number that is a perfect square, else zero. -/
def natRoot (n : Nat) : Nat :=
  ((List.range (n + 1)).find? (fun k => k * k == n)).getD 0

/-- The root of a rational whose numerator and denominator are perfect
squares, else zero. -/
def ratRoot (q : ℚ) : ℚ :=
  (natRoot q.num.toNat : ℚ) / (natRoot q.den : ℚ)

/-- A computable stand-in for the collaborators over `ℚ`: the random source is
the list of the numbers still to be drawn; `M_PI` is the approximation
`355/113`; `pow` is exact for a natural exponent; `sqrt` and `inversesqrt` are
exact on squares of rationals; `cos` and `sin` are those of the angle zero;
`sameHemisphere` compares the signs of the two cosines; `perpendicular` swaps
and negates two coordinates. -/
def ratEnv : Env ℚ (List ℚ) where
  pi := 355 / 113
  div := fun a b => a / b
  pow := fun b e => b ^ e.num.toNat
  sqrt := ratRoot
  cos := fun _ => 1
  sin := fun _ => 0
  inversesqrt := fun x => 1 / ratRoot x
  sameHemisphere := fun i o n => decide (0 < Vec3.dot i n ∧ 0 < Vec3.dot o n) ||
    decide (Vec3.dot i n < 0 ∧ Vec3.dot o n < 0)
  perpendicular := fun v => if |v.x| < |v.y| then ⟨0, -v.z, v.y⟩ else ⟨-v.z, 0, v.x⟩
  randf := fun r => (r.headD 0, r.tail)
  cosineSampleHemisphere := fun r => (⟨r.headD 0, r.tail.headD 0, r.tail.tail.headD 0⟩, r.drop 3)

section VectorLemmas

variable {K : Type} [LinearOrderedField K]

open Vec3

@[simp] theorem Vec3.zero_def : (0 : Vec3 K) = ⟨0, 0, 0⟩ := rfl

omit [LinearOrderedField K] in
@[simp] theorem Vec3.splat_def (s : K) : splat s = ⟨s, s, s⟩ := rfl

@[simp] theorem Vec3.add_def (a b : Vec3 K) : a + b = ⟨a.x + b.x, a.y + b.y, a.z + b.z⟩ := rfl

@[simp] theorem Vec3.sub_def (a b : Vec3 K) : a - b = ⟨a.x - b.x, a.y - b.y, a.z - b.z⟩ := rfl

@[simp] theorem Vec3.mul_def (a b : Vec3 K) : a * b = ⟨a.x * b.x, a.y * b.y, a.z * b.z⟩ := rfl

@[simp] theorem Vec3.smul_def (s : K) (v : Vec3 K) : s * v = ⟨s * v.x, s * v.y, s * v.z⟩ := rfl

@[simp] theorem Vec3.muls_def (v : Vec3 K) (s : K) : v * s = ⟨v.x * s, v.y * s, v.z * s⟩ := rfl

theorem Vec3.dot_comm (a b : Vec3 K) : dot a b = dot b a := by
  simp only [dot]; ring

theorem Vec3.add_comm_vec (a b : Vec3 K) : a + b = b + a := by
  simp [add_comm]

end VectorLemmas

/-! ## Hemisphere clamping -/

section Clamping

variable {K R : Type} [LinearOrderedField K]

open Vec3

theorem BlinnPhong.reflection_brdf_of_ndotwi_nonpos (env : Env K R) (shininess R0 : K)
    (wi wo n : Vec3 K) (h : dot n wi ≤ 0) :
    BlinnPhong.reflection_brdf env shininess R0 wi wo n = 0 := by
  simp [BlinnPhong.reflection_brdf, max_eq_left h]

theorem BlinnPhong.reflection_brdf_of_ndotwo_nonpos (env : Env K R) (shininess R0 : K)
    (wi wo n : Vec3 K) (h : dot n wo ≤ 0) :
    BlinnPhong.reflection_brdf env shininess R0 wi wo n = 0 := by
  simp [BlinnPhong.reflection_brdf, max_eq_left h]

mutual

theorem Material.f_of_below (env : Env K R) :
    ∀ (m : Material K) (wi wo n : Vec3 K), dot wi n ≤ 0 → Material.f env m wi wo n = 0
  | .Diffuse color, wi, wo, n, h => by
      simp [Material.f, Diffuse.f, h]
  | .BlinnPhong shininess R0 layer, wi, wo, n, h => by
      have h1 := BlinnPhong.reflection_brdf_of_ndotwi_nonpos env shininess R0 wi wo n
        (Vec3.dot_comm wi n ▸ h)
      have h2 := BlinnPhong.refraction_brdf_of_below env R0 layer wi wo n h
      rw [Material.f, h1, h2]
      simp
  | .BlinnPhongMetal color shininess R0 layer, wi, wo, n, h => by
      have h1 := BlinnPhong.reflection_brdf_of_ndotwi_nonpos env shininess R0 wi wo n
        (Vec3.dot_comm wi n ▸ h)
      rw [Material.f, BlinnPhongMetal.reflection_brdf, BlinnPhongMetal.refraction_brdf, h1]
      simp
  | .LinearBlend w bsdf0 bsdf1, wi, wo, n, h => by
      have h0 := Material.f_of_below env bsdf0 wi wo n h
      have h1 := Material.f_of_below env bsdf1 wi wo n h
      rw [Material.f, h0, h1]
      simp

theorem BlinnPhong.refraction_brdf_of_below (env : Env K R) (R0 : K) :
    ∀ (layer : Option (Material K)) (wi wo n : Vec3 K), dot wi n ≤ 0 →
      BlinnPhong.refraction_brdf env R0 layer wi wo n = 0
  | none, wi, wo, n, _ => by
      simp [BlinnPhong.refraction_brdf]
  | some m, wi, wo, n, h => by
      have h0 := Material.f_of_below env m wi wo n h
      rw [BlinnPhong.refraction_brdf]
      simp only [h0]
      simp

end

/-- C1 (hemisphere clamping): for every material tree, whatever its variants
and its depth, and for all `wi`, `wo`, `n` with `dot(wi, n) ≤ 0`, the value
`f(wi, wo, n)` is the zero vector. -/
theorem hemisphere_clamping (env : Env K R) (m : Material K) (wi wo n : Vec3 K)
    (h : dot wi n ≤ 0) : Material.f env m wi wo n = 0 :=
  Material.f_of_below env m wi wo n h

/-- Witness of C1: a blend of a coated diffuse material and a metal, lit from
below the surface. -/
theorem hemisphere_clamping_witness :
    dot (⟨0, -1, 0⟩ : Vec3 ℚ) ⟨0, 1, 0⟩ ≤ 0 ∧
      Material.f ratEnv
        (.LinearBlend (1 / 2) (.BlinnPhong 10 (1 / 25) (some (.Diffuse ⟨1, 1, 1⟩)))
          (.BlinnPhongMetal ⟨1, 1, 1⟩ 5 (1 / 2) none))
        ⟨0, -1, 0⟩ ⟨0, 1, 0⟩ ⟨0, 1, 0⟩ = 0 :=
  ⟨by norm_num [dot], hemisphere_clamping _ _ _ _ _ (by norm_num [dot])⟩

end Clamping

/-! ## Blend linearity -/

section Blend

variable {K R : Type} [LinearOrderedField K]

open Vec3

/-- C2 (blend linearity): for all sub-materials `A`, `B`, every weight `w` and
all `wi`, `wo`, `n`, the blend evaluates to `w * A.f + (1 - w) * B.f`; with
`w = 1` it is `A.f` and with `w = 0` it is `B.f`. -/
theorem blend_linearity (env : Env K R) (w : K) (A B : Material K) (wi wo n : Vec3 K) :
    Material.f env (.LinearBlend w A B) wi wo n =
        w * Material.f env A wi wo n + (1 - w) * Material.f env B wi wo n ∧
      Material.f env (.LinearBlend 1 A B) wi wo n = Material.f env A wi wo n ∧
      Material.f env (.LinearBlend 0 A B) wi wo n = Material.f env B wi wo n := by
  refine ⟨by rw [Material.f], ?_, ?_⟩
  · rw [Material.f]; simp
  · rw [Material.f]; simp

end Blend

/-! ## Reciprocity of the reflection lobe -/

section Reciprocity

variable {K R : Type} [LinearOrderedField K]

open Vec3

/-- For directions of equal length the half-vector makes the same cosine with
both: `dot(wh, wi) = dot(wh, wo)`. -/
theorem Env.dot_normalize_sum (env : Env K R) (wi wo : Vec3 K)
    (h : dot wi wi = dot wo wo) :
    dot (env.normalize (wi + wo)) wi = dot (env.normalize (wi + wo)) wo := by
  simp only [Env.normalize, dot, Vec3.add_def, Vec3.muls_def] at h ⊢
  linear_combination (env.inversesqrt
    ((wi.x + wo.x) * (wi.x + wo.x) + (wi.y + wo.y) * (wi.y + wo.y) +
      (wi.z + wo.z) * (wi.z + wo.z))) * h

/-- C3 (Helmholtz reciprocity of the reflection lobe): for every shininess and
`R0`, all unit vectors `wi`, `wo` and every `n`, `reflection_brdf(wi, wo, n)`
equals `reflection_brdf(wo, wi, n)`. -/
theorem reflection_brdf_reciprocity (env : Env K R) (shininess R0 : K) (wi wo n : Vec3 K)
    (hwi : dot wi wi = 1) (hwo : dot wo wo = 1) :
    BlinnPhong.reflection_brdf env shininess R0 wi wo n =
      BlinnPhong.reflection_brdf env shininess R0 wo wi n := by
  have hc : wo + wi = wi + wo := Vec3.add_comm_vec wo wi
  have h1 : dot (env.normalize (wi + wo)) wi = dot (env.normalize (wi + wo)) wo :=
    env.dot_normalize_sum wi wo (hwi.trans hwo.symm)
  have h2 : dot wo (env.normalize (wi + wo)) = dot wi (env.normalize (wi + wo)) := by
    rw [Vec3.dot_comm wo, Vec3.dot_comm wi, h1]
  have h3 : 4 * max 0 (dot n wi) * max 0 (dot n wo) = 4 * max 0 (dot n wo) * max 0 (dot n wi) := by
    ring
  simp only [BlinnPhong.reflection_brdf, BlinnPhong.G, BlinnPhong.A, BlinnPhong.B, hc, h1, h2, h3,
    min_comm (env.div (2 * max 0 (dot n (env.normalize (wi + wo))) * max 0 (dot n wi))
      (max 0 (dot wi (env.normalize (wi + wo)))))]

/-- Witness of C3: two unit directions above the plane `y = 0`. -/
theorem reflection_brdf_reciprocity_witness :
    dot (⟨0, 1, 0⟩ : Vec3 ℚ) ⟨0, 1, 0⟩ = 1 ∧
      dot (⟨24 / 25, 7 / 25, 0⟩ : Vec3 ℚ) ⟨24 / 25, 7 / 25, 0⟩ = 1 ∧
      BlinnPhong.reflection_brdf ratEnv 2 (1 / 25) ⟨0, 1, 0⟩ ⟨24 / 25, 7 / 25, 0⟩ ⟨0, 1, 0⟩ =
        BlinnPhong.reflection_brdf ratEnv 2 (1 / 25) ⟨24 / 25, 7 / 25, 0⟩ ⟨0, 1, 0⟩ ⟨0, 1, 0⟩ :=
  ⟨by norm_num [dot], by norm_num [dot],
    reflection_brdf_reciprocity _ _ _ _ _ _ (by norm_num [dot]) (by norm_num [dot])⟩

end Reciprocity

/-! ## The rational instance is well behaved -/

section RatEnv

theorem ratEnv_exactDiv : ratEnv.ExactDiv := fun _ _ _ => rfl

theorem ratEnv_pi_pos : 0 < ratEnv.pi := by norm_num [ratEnv]

theorem ratEnv_pi_ne_zero : ratEnv.pi ≠ 0 := ne_of_gt ratEnv_pi_pos

theorem ratRoot_four : ratRoot 4 = 2 := by
  have h4 : natRoot 4 = 2 := by decide
  have h1 : natRoot 1 = 1 := by decide
  have hnum : ((4 : ℚ).num).toNat = 4 := by
    rw [show (4 : ℚ) = ((4 : ℕ) : ℚ) by norm_num, Rat.num_natCast]
    rfl
  have hden : (4 : ℚ).den = 1 := by
    rw [show (4 : ℚ) = ((4 : ℕ) : ℚ) by norm_num, Rat.den_natCast]
  rw [ratRoot, hnum, hden, h4, h1]
  norm_num

theorem ratRoot_zero : ratRoot 0 = 0 := by
  have h0 : natRoot 0 = 0 := by decide
  simp [ratRoot, h0]

theorem ratRoot_one : ratRoot 1 = 1 := by
  have h1 : natRoot 1 = 1 := by decide
  simp [ratRoot, h1]

theorem ratEnv_invSqrtAt_four : ratEnv.InvSqrtAt 4 := by
  simp only [Env.InvSqrtAt, ratEnv, ratRoot_four]
  norm_num

theorem ratEnv_pow_zero_five : ratEnv.pow 0 5 = 0 := by
  have hnum : ((5 : ℚ).num).toNat = 5 := by
    rw [show (5 : ℚ) = ((5 : ℕ) : ℚ) by norm_num, Rat.num_natCast]
    rfl
  simp only [ratEnv, hnum]
  norm_num

theorem ratEnv_pow_one (e : ℚ) : ratEnv.pow 1 e = 1 := by
  simp [ratEnv]

theorem ratEnv_pow_nonneg (x e : ℚ) (hx : 0 ≤ x) : 0 ≤ ratEnv.pow x e :=
  pow_nonneg hx _

theorem ratEnv_pow_five_le_one (x : ℚ) (h0 : 0 ≤ x) (h1 : x ≤ 1) : ratEnv.pow x 5 ≤ 1 :=
  pow_le_one₀ h0 h1

theorem ratEnv_dot_double :
    Vec3.dot ((⟨0, 1, 0⟩ : Vec3 ℚ) + ⟨0, 1, 0⟩) ((⟨0, 1, 0⟩ : Vec3 ℚ) + ⟨0, 1, 0⟩) = 4 := by
  norm_num [Vec3.dot]

theorem ratEnv_invSqrtAt_double :
    ratEnv.InvSqrtAt
      (Vec3.dot ((⟨0, 1, 0⟩ : Vec3 ℚ) + ⟨0, 1, 0⟩) ((⟨0, 1, 0⟩ : Vec3 ℚ) + ⟨0, 1, 0⟩)) := by
  rw [ratEnv_dot_double]
  exact ratEnv_invSqrtAt_four

end RatEnv

/-! ## The Lambertian lobe -/

section DiffuseContract

variable {K R : Type} [LinearOrderedField K]

open Vec3

/-- C4 (contract of `Diffuse::f`): with exact division and `M_PI ≠ 0`, the value
is `color / M_PI` when `dot(wi, n) > 0` and `sameHemisphere(wi, wo, n)` holds,
and the zero vector in every other case; in the first case `M_PI * f = color`;
and for `color = (0.5, 0.5, 0.5)`, `n = wo = wi = (0, 1, 0)` the value is
`0.5 / M_PI` on every channel. -/
theorem diffuse_f_contract (env : Env K R) (color wi wo n : Vec3 K)
    (hdiv : env.ExactDiv) (hpi : env.pi ≠ 0) :
    (0 < dot wi n → env.sameHemisphere wi wo n = true →
        Diffuse.f env color wi wo n =
          ⟨color.x / env.pi, color.y / env.pi, color.z / env.pi⟩) ∧
      (¬ (0 < dot wi n ∧ env.sameHemisphere wi wo n = true) →
        Diffuse.f env color wi wo n = 0) ∧
      (0 < dot wi n → env.sameHemisphere wi wo n = true →
        env.pi * Diffuse.f env color wi wo n = color) ∧
      (env.sameHemisphere ⟨0, 1, 0⟩ ⟨0, 1, 0⟩ ⟨0, 1, 0⟩ = true →
        Diffuse.f env ⟨1 / 2, 1 / 2, 1 / 2⟩ ⟨0, 1, 0⟩ ⟨0, 1, 0⟩ ⟨0, 1, 0⟩ =
          splat ((1 / 2) / env.pi)) := by
  have hval : ∀ (c a b m : Vec3 K), 0 < dot a m → env.sameHemisphere a b m = true →
      Diffuse.f env c a b m = ⟨c.x / env.pi, c.y / env.pi, c.z / env.pi⟩ := by
    intro c a b m h1 h2
    simp only [Diffuse.f, not_le.mpr h1, h2, hdiv 1 env.pi hpi, if_false, Bool.not_true,
      Vec3.smul_def, Bool.false_eq_true]
    ext <;> simp [div_eq_mul_inv, mul_comm]
  refine ⟨hval color wi wo n, ?_, ?_, ?_⟩
  · intro h
    by_cases h1 : dot wi n ≤ 0
    · simp [Diffuse.f, h1]
    · have h2 : env.sameHemisphere wi wo n = false := by
        cases hs : env.sameHemisphere wi wo n
        · rfl
        · exact absurd ⟨not_le.mp h1, hs⟩ h
      simp [Diffuse.f, h1, h2]
  · intro h1 h2
    rw [hval color wi wo n h1 h2]
    ext <;> simp [mul_div_cancel₀ _ hpi]
  · intro h
    rw [hval _ _ _ _ (by norm_num [dot]) h]
    simp

/-- Witness of C4: the end-to-end scenario, run on the rational instance. -/
theorem diffuse_f_contract_witness :
    ratEnv.ExactDiv ∧ ratEnv.pi ≠ 0 ∧
      ratEnv.sameHemisphere ⟨0, 1, 0⟩ ⟨0, 1, 0⟩ ⟨0, 1, 0⟩ = true ∧
      Diffuse.f ratEnv ⟨1 / 2, 1 / 2, 1 / 2⟩ ⟨0, 1, 0⟩ ⟨0, 1, 0⟩ ⟨0, 1, 0⟩ =
        splat ((1 / 2) / ratEnv.pi) :=
  ⟨ratEnv_exactDiv, ratEnv_pi_ne_zero, by norm_num [ratEnv, dot],
    (diffuse_f_contract ratEnv ⟨1, 1, 1⟩ ⟨0, 1, 0⟩ ⟨0, 1, 0⟩ ⟨0, 1, 0⟩ ratEnv_exactDiv
      ratEnv_pi_ne_zero).2.2.2 (by norm_num [ratEnv, dot])⟩

end DiffuseContract

/-! ## The two lobes of `BlinnPhong` -/

section Lobes

variable {K R : Type} [LinearOrderedField K]

open Vec3

/-- C5 (contract of `BlinnPhong::refraction_brdf`): without a layer the value
is the zero vector; over a layer `L` it is `(1 - F) * L.f(wi, wo, n)` with
`F = R0 + (1 - R0) * pow(1 - max(0, dot(wh, wi)), 5)` and
`wh = normalize(wi + wo)`; `reflection_brdf`, where its guard lets it
proceed, is built on the same `F`; and `BlinnPhong::f` is the sum of the two
lobes. -/
theorem refraction_brdf_contract (env : Env K R) (shininess R0 : K) (L : Material K)
    (layer : Option (Material K)) (wi wo n : Vec3 K) :
    BlinnPhong.refraction_brdf env R0 none wi wo n = 0 ∧
      BlinnPhong.refraction_brdf env R0 (some L) wi wo n =
        (1 - (R0 + (1 - R0) * env.pow (1 - max 0 (dot (env.normalize (wi + wo)) wi)) 5)) *
          Material.f env L wi wo n ∧
      (0 < 4 * max 0 (dot n wo) * max 0 (dot n wi) →
        BlinnPhong.reflection_brdf env shininess R0 wi wo n =
          splat (env.div
            ((R0 + (1 - R0) * env.pow (1 - max 0 (dot (env.normalize (wi + wo)) wi)) 5) *
              BlinnPhong.D env shininess (max 0 (dot n (env.normalize (wi + wo)))) *
              BlinnPhong.G env (max 0 (dot n (env.normalize (wi + wo)))) (max 0 (dot n wo))
                (max 0 (dot n wi)) (max 0 (dot wo (env.normalize (wi + wo)))))
            (4 * max 0 (dot n wo) * max 0 (dot n wi)))) ∧
      Material.f env (.BlinnPhong shininess R0 layer) wi wo n =
        BlinnPhong.reflection_brdf env shininess R0 wi wo n +
          BlinnPhong.refraction_brdf env R0 layer wi wo n := by
  refine ⟨?_, ?_, ?_, ?_⟩
  · simp [BlinnPhong.refraction_brdf]
  · simp only [BlinnPhong.refraction_brdf, BlinnPhong.F]
  · intro h
    simp only [BlinnPhong.reflection_brdf, BlinnPhong.F, not_le.mpr h, if_false]
  · rw [Material.f]

/-- Witness of C5: at normal incidence the guard of `reflection_brdf` is
passed and the lobe is built on the Fresnel term of `refraction_brdf`. -/
theorem refraction_brdf_contract_witness :
    (0 : ℚ) < 4 * max 0 (dot (⟨0, 1, 0⟩ : Vec3 ℚ) ⟨0, 1, 0⟩) *
        max 0 (dot (⟨0, 1, 0⟩ : Vec3 ℚ) ⟨0, 1, 0⟩) ∧
      BlinnPhong.reflection_brdf ratEnv 0 (1 / 25) ⟨0, 1, 0⟩ ⟨0, 1, 0⟩ ⟨0, 1, 0⟩ =
        splat (ratEnv.div
          (((1 / 25 : ℚ) + (1 - 1 / 25) * ratEnv.pow
              (1 - max 0 (dot (ratEnv.normalize ((⟨0, 1, 0⟩ : Vec3 ℚ) + ⟨0, 1, 0⟩)) ⟨0, 1, 0⟩)) 5) *
            BlinnPhong.D ratEnv 0
              (max 0 (dot ⟨0, 1, 0⟩ (ratEnv.normalize ((⟨0, 1, 0⟩ : Vec3 ℚ) + ⟨0, 1, 0⟩)))) *
            BlinnPhong.G ratEnv
              (max 0 (dot ⟨0, 1, 0⟩ (ratEnv.normalize ((⟨0, 1, 0⟩ : Vec3 ℚ) + ⟨0, 1, 0⟩))))
              (max 0 (dot (⟨0, 1, 0⟩ : Vec3 ℚ) ⟨0, 1, 0⟩))
              (max 0 (dot (⟨0, 1, 0⟩ : Vec3 ℚ) ⟨0, 1, 0⟩))
              (max 0 (dot ⟨0, 1, 0⟩ (ratEnv.normalize ((⟨0, 1, 0⟩ : Vec3 ℚ) + ⟨0, 1, 0⟩)))))
          (4 * max 0 (dot (⟨0, 1, 0⟩ : Vec3 ℚ) ⟨0, 1, 0⟩) *
            max 0 (dot (⟨0, 1, 0⟩ : Vec3 ℚ) ⟨0, 1, 0⟩))) :=
  ⟨by norm_num [dot],
    (refraction_brdf_contract ratEnv 0 (1 / 25) (.Diffuse ⟨1, 1, 1⟩) none
      ⟨0, 1, 0⟩ ⟨0, 1, 0⟩ ⟨0, 1, 0⟩).2.2.1 (by norm_num [dot])⟩

/-- Where `inversesqrt` is exact at `4`, it returns one half. -/
theorem Env.inversesqrt_four (env : Env K R) (h : env.InvSqrtAt 4) :
    env.inversesqrt 4 = 1 / 2 := by
  obtain ⟨hpos, hsq⟩ := h
  have h0 : (env.inversesqrt 4 - 1 / 2) * (env.inversesqrt 4 + 1 / 2) = 0 := by
    linear_combination (1 / 4 : K) * hsq
  rcases mul_eq_zero.mp h0 with h1 | h1
  · linarith
  · linarith

/-- The half-vector of a unit direction with itself is that direction. -/
theorem Env.normalize_double (env : Env K R) (n : Vec3 K) (hn : dot n n = 1)
    (h4 : env.InvSqrtAt 4) : env.normalize (n + n) = n := by
  have hd : dot (n + n) (n + n) = 4 := by
    simp only [dot, Vec3.add_def] at hn ⊢
    linear_combination 4 * hn
  rw [Env.normalize, hd, env.inversesqrt_four h4]
  ext <;> simp <;> ring

/-- C6 (normal incidence): for a unit vector `n`, any `R0` and a shininess
`s ≥ 0`, with `wi = wo = n` the terms are `F = R0`, `D = (s + 2) / (2 * M_PI)`,
`G = 1` and `reflection_brdf(n, n, n)` is `R0 * (s + 2) / (8 * M_PI)` on every
channel; for `s = 0`, `R0 = 0.04` and no layer this is `0.04 / (4 * M_PI)`,
`refraction_brdf` is zero and `f` is `0.04 / (4 * M_PI)` on every channel.
Assumed of the numeric library: exact division, `M_PI ≠ 0`, `inversesqrt`
exact at `4`, `pow(0, 5) = 0` and `pow(1, e) = 1` for `e ≥ 0`. -/
theorem reflection_brdf_normal_incidence (env : Env K R) (s R0 : K) (n : Vec3 K)
    (hn : dot n n = 1) (hs : 0 ≤ s) (hdiv : env.ExactDiv) (hpi : env.pi ≠ 0)
    (h4 : env.InvSqrtAt 4) (hpow0 : env.pow 0 5 = 0)
    (hpow1 : ∀ e : K, 0 ≤ e → env.pow 1 e = 1) :
    BlinnPhong.F env R0 (max 0 (dot (env.normalize (n + n)) n)) = R0 ∧
      BlinnPhong.D env s (max 0 (dot n (env.normalize (n + n)))) = (s + 2) / (2 * env.pi) ∧
      BlinnPhong.G env (max 0 (dot n (env.normalize (n + n)))) (max 0 (dot n n))
        (max 0 (dot n n)) (max 0 (dot n (env.normalize (n + n)))) = 1 ∧
      BlinnPhong.reflection_brdf env s R0 n n n = splat (R0 * (s + 2) / (8 * env.pi)) ∧
      BlinnPhong.reflection_brdf env 0 (4 / 100) n n n = splat ((4 / 100) / (4 * env.pi)) ∧
      BlinnPhong.refraction_brdf env (4 / 100) none n n n = 0 ∧
      Material.f env (.BlinnPhong 0 (4 / 100) none) n n n = splat ((4 / 100) / (4 * env.pi)) := by
  have hwh : env.normalize (n + n) = n := env.normalize_double n hn h4
  have hmax : max (0 : K) 1 = 1 := max_eq_right zero_le_one
  have h2pi : 2 * env.pi ≠ 0 := mul_ne_zero two_ne_zero hpi
  have hF : ∀ r : K, BlinnPhong.F env r 1 = r := by
    intro r
    simp [BlinnPhong.F, hpow0]
  have hD : ∀ e : K, 0 ≤ e → BlinnPhong.D env e 1 = (e + 2) / (2 * env.pi) := by
    intro e he
    simp [BlinnPhong.D, hpow1 e he, hdiv _ _ h2pi]
  have hG : BlinnPhong.G env 1 1 1 1 = 1 := by
    simp [BlinnPhong.G, BlinnPhong.A, BlinnPhong.B, hdiv _ _ (one_ne_zero)]
  have hval : ∀ e r : K, 0 ≤ e →
      BlinnPhong.reflection_brdf env e r n n n = splat (r * (e + 2) / (8 * env.pi)) := by
    intro e r he
    have h40 : ¬ ((4 : K) ≤ 0) := by norm_num
    have h4ne : (4 : K) ≠ 0 := by norm_num
    have hsc : r * ((e + 2) / (2 * env.pi)) / 4 = r * (e + 2) / (8 * env.pi) := by
      rw [mul_div_assoc', div_div]
      congr 1
      ring
    simp only [BlinnPhong.reflection_brdf, hwh, hn, hmax, mul_one, h40, if_false, hF, hD e he, hG,
      hdiv _ _ h4ne, hsc]
  have h0 := hval 0 (4 / 100) le_rfl
  have hsc0 : (4 / 100 : K) * (0 + 2) / (8 * env.pi) = (4 / 100) / (4 * env.pi) := by
    rw [show (8 : K) * env.pi = 2 * (4 * env.pi) by ring, zero_add, mul_comm (4 / 100 : K) 2,
      mul_div_mul_left _ _ two_ne_zero]
  have hrefr : BlinnPhong.refraction_brdf env (4 / 100) none n n n = 0 := by
    simp [BlinnPhong.refraction_brdf]
  refine ⟨?_, ?_, ?_, hval s R0 hs, ?_, hrefr, ?_⟩
  · rw [hwh, hn, hmax]; exact hF R0
  · rw [hwh, hn, hmax]; exact hD s hs
  · rw [hwh, hn, hmax]; exact hG
  · rw [h0, hsc0]
  · rw [Material.f, h0, hrefr, hsc0]
    simp

/-- Witness of C6: the normal `(0, 1, 0)`, shininess `0` and `R0 = 0.04` on the
rational instance. -/
theorem reflection_brdf_normal_incidence_witness :
    dot (⟨0, 1, 0⟩ : Vec3 ℚ) ⟨0, 1, 0⟩ = 1 ∧ (0 : ℚ) ≤ 0 ∧ ratEnv.ExactDiv ∧ ratEnv.pi ≠ 0 ∧
      ratEnv.InvSqrtAt 4 ∧ ratEnv.pow 0 5 = 0 ∧ (∀ e : ℚ, 0 ≤ e → ratEnv.pow 1 e = 1) ∧
      BlinnPhong.reflection_brdf ratEnv 0 (4 / 100) ⟨0, 1, 0⟩ ⟨0, 1, 0⟩ ⟨0, 1, 0⟩ =
        splat ((4 / 100) * (0 + 2) / (8 * ratEnv.pi)) :=
  ⟨by norm_num [dot], le_rfl, ratEnv_exactDiv, ratEnv_pi_ne_zero, ratEnv_invSqrtAt_four,
    ratEnv_pow_zero_five, fun e _ => ratEnv_pow_one e,
    (reflection_brdf_normal_incidence ratEnv 0 (4 / 100) ⟨0, 1, 0⟩ (by norm_num [dot]) le_rfl
      ratEnv_exactDiv ratEnv_pi_ne_zero ratEnv_invSqrtAt_four ratEnv_pow_zero_five
      (fun e _ => ratEnv_pow_one e)).2.2.2.1⟩

/-- C7 (metal override): for every `BlinnPhongMetal`, with or without a
refraction layer, `refraction_brdf` is the zero vector, `reflection_brdf` is
the `BlinnPhong` reflection lobe of the same shininess and `R0` times `color`
channel by channel, and the inherited `f` is their sum whatever the layer. -/
theorem metal_override (env : Env K R) (color : Vec3 K) (shininess R0 : K)
    (layer : Option (Material K)) (wi wo n : Vec3 K) :
    BlinnPhongMetal.refraction_brdf wi wo n = 0 ∧
      BlinnPhongMetal.reflection_brdf env color shininess R0 wi wo n =
        ⟨(BlinnPhong.reflection_brdf env shininess R0 wi wo n).x * color.x,
          (BlinnPhong.reflection_brdf env shininess R0 wi wo n).y * color.y,
          (BlinnPhong.reflection_brdf env shininess R0 wi wo n).z * color.z⟩ ∧
      Material.f env (.BlinnPhongMetal color shininess R0 layer) wi wo n =
        BlinnPhongMetal.reflection_brdf env color shininess R0 wi wo n +
          BlinnPhongMetal.refraction_brdf wi wo n := by
  refine ⟨rfl, rfl, ?_⟩
  rw [Material.f]

/-- C8 (degenerate geometry guard): for all `wi`, `wo`, `n` with
`dot(n, wo) ≤ 0` or `dot(n, wi) ≤ 0`, `reflection_brdf(wi, wo, n)` is the zero
vector, whatever `inversesqrt`, `pow` and the division return. -/
theorem reflection_brdf_degenerate (env : Env K R) (shininess R0 : K) (wi wo n : Vec3 K)
    (h : dot n wo ≤ 0 ∨ dot n wi ≤ 0) :
    BlinnPhong.reflection_brdf env shininess R0 wi wo n = 0 := by
  rcases h with h | h
  · exact BlinnPhong.reflection_brdf_of_ndotwo_nonpos env shininess R0 wi wo n h
  · exact BlinnPhong.reflection_brdf_of_ndotwi_nonpos env shininess R0 wi wo n h

/-- Witness of C8: `wo` perpendicular to `n`. -/
theorem reflection_brdf_degenerate_witness :
    (dot (⟨0, 1, 0⟩ : Vec3 ℚ) ⟨1, 0, 0⟩ ≤ 0 ∨ dot (⟨0, 1, 0⟩ : Vec3 ℚ) ⟨0, 1, 0⟩ ≤ 0) ∧
      BlinnPhong.reflection_brdf ratEnv 3 (1 / 25) ⟨0, 1, 0⟩ ⟨1, 0, 0⟩ ⟨0, 1, 0⟩ = 0 :=
  ⟨Or.inl (by norm_num [dot]),
    reflection_brdf_degenerate ratEnv 3 (1 / 25) _ _ _ (Or.inl (by norm_num [dot]))⟩

end Lobes

/-! ## The three paths of `BlinnPhong::sample_wi` -/

section Sampling

variable {K R : Type} [LinearOrderedField K]

open Vec3

/-- The viewer on or below the surface: the call returns the zero vector after
the two draws of `wh` and assigns neither output slot. -/
theorem BlinnPhong.sample_wi_below (env : Env K R) (shininess R0 : K)
    (refl : Vec3 K → Vec3 K → Vec3 K → Vec3 K) (layer : Option (Material K))
    (wi wo n : Vec3 K) (p : K) (rng : R) (hwo : dot wo n ≤ 0) :
    BlinnPhong.sample_wi env shininess R0 refl layer wi wo n p rng =
      some ⟨wi, p, 0, BlinnPhong.rng_after_wh env rng⟩ := by
  rw [BlinnPhong.sample_wi]
  simp only [hwo, if_true, BlinnPhong.rng_after_wh]
  rfl

/-- The reflect branch: `wi` is assigned, the slot `p` keeps its prior
content. -/
theorem BlinnPhong.sample_wi_reflect (env : Env K R) (shininess R0 : K)
    (refl : Vec3 K → Vec3 K → Vec3 K → Vec3 K) (layer : Option (Material K))
    (wi wo n : Vec3 K) (p : K) (rng : R) (hwo : 0 < dot wo n)
    (hcoin : BlinnPhong.coin env rng < 1 / 2) :
    BlinnPhong.sample_wi env shininess R0 refl layer wi wo n p rng =
      some ⟨reflect wo (BlinnPhong.drawn_wh env shininess n rng), p,
        refl (reflect wo (BlinnPhong.drawn_wh env shininess n rng)) wo n,
        BlinnPhong.rng_after_coin env rng⟩ := by
  simp only [BlinnPhong.coin, BlinnPhong.rng_after_wh] at hcoin
  rw [BlinnPhong.sample_wi]
  simp only [not_le.mpr hwo, if_false, hcoin, if_true, BlinnPhong.rng_after_coin,
    BlinnPhong.rng_after_wh, BlinnPhong.drawn_wh]

/-- The refract branch over a layer whose own `sample_wi` completes with `sl`:
the direction is the layer's, the density is half the layer's and the value is
the layer's times `1 - F` for `F = -R0 + (1 - R0) * pow(1 - abs(dot(wh, wi)), 5)`
with the drawn `wh`. -/
theorem BlinnPhong.sample_wi_refract (env : Env K R) (shininess R0 : K)
    (refl : Vec3 K → Vec3 K → Vec3 K → Vec3 K) (layer : Material K)
    (wi wo n : Vec3 K) (p : K) (rng : R) (sl : Sample K R) (hwo : 0 < dot wo n)
    (hcoin : ¬ BlinnPhong.coin env rng < 1 / 2)
    (hl : Material.sample_wi env layer wi wo n p (BlinnPhong.rng_after_coin env rng) = some sl) :
    BlinnPhong.sample_wi env shininess R0 refl (some layer) wi wo n p rng =
      some ⟨sl.wi, sl.p * (1 / 2),
        (1 - (-R0 + (1 - R0) *
          env.pow (1 - |dot (BlinnPhong.drawn_wh env shininess n rng) sl.wi|) 5)) * sl.value,
        sl.rng⟩ := by
  simp only [BlinnPhong.coin, BlinnPhong.rng_after_wh] at hcoin
  simp only [BlinnPhong.rng_after_coin, BlinnPhong.rng_after_wh] at hl
  rw [BlinnPhong.sample_wi]
  simp only [not_le.mpr hwo, if_false, hcoin, hl, BlinnPhong.drawn_wh]

/-- The refract branch without a layer dereferences `NULL`. -/
theorem BlinnPhong.sample_wi_refract_null (env : Env K R) (shininess R0 : K)
    (refl : Vec3 K → Vec3 K → Vec3 K → Vec3 K)
    (wi wo n : Vec3 K) (p : K) (rng : R) (hwo : 0 < dot wo n)
    (hcoin : ¬ BlinnPhong.coin env rng < 1 / 2) :
    BlinnPhong.sample_wi env shininess R0 refl none wi wo n p rng = none := by
  simp only [BlinnPhong.coin, BlinnPhong.rng_after_wh] at hcoin
  rw [BlinnPhong.sample_wi]
  simp only [not_le.mpr hwo, if_false, hcoin]

/-- The density that `Diffuse::sample_wi` reports is never negative. -/
theorem Diffuse.sample_wi_p_nonneg (env : Env K R) (color wo n : Vec3 K) (rng : R)
    (hdiv : env.ExactDiv) (hpi : 0 < env.pi) :
    0 ≤ (Diffuse.sample_wi env color wo n rng).p := by
  simp only [Diffuse.sample_wi]
  split_ifs
  · exact le_rfl
  · rw [hdiv _ _ (ne_of_gt hpi)]
    exact div_nonneg (le_max_left _ _) hpi.le

/-- The half-vector drawn on the rational instance from the draws `0`, `1`
about the normal `(0, 1, 0)` is the normal. -/
theorem ratEnv_drawn_wh (c : ℚ) :
    BlinnPhong.drawn_wh ratEnv 0 ⟨0, 1, 0⟩ [0, 1, c] = ⟨0, 1, 0⟩ := by
  simp [BlinnPhong.drawn_wh, BlinnPhong.sampled_wh, ratEnv, Env.normalize, dot, cross,
    ratRoot_one, ratRoot_zero]

/-- C9, the code at a failing input: shininess `0`, `wo = (0.6, 0.8, 0)`,
`n = (0, 1, 0)`, the slot `p` holding `-7` and the draws `0, 1, 0.25`.  The coin
selects the reflect branch; the density stored in the branch's own variable is
`113/4544` (half of `p_wh / (4 * dot(wo, wh))`), and the slot `p` still holds
`-7` on return. -/
theorem sample_wi_reflect_density_dropped :
    BlinnPhong.coin ratEnv [0, 1, 1 / 4] < 1 / 2 ∧
      Material.sample_wi ratEnv (.BlinnPhong 0 (4 / 100) none) ⟨9, 9, 9⟩ ⟨3 / 5, 4 / 5, 0⟩
          ⟨0, 1, 0⟩ (-7) [0, 1, 1 / 4] =
        some ⟨⟨3 / 5, -4 / 5, 0⟩, -7, 0, []⟩ ∧
      BlinnPhong.reflect_local_p ratEnv 0 ⟨3 / 5, 4 / 5, 0⟩ ⟨0, 1, 0⟩
          (BlinnPhong.drawn_wh ratEnv 0 ⟨0, 1, 0⟩ [0, 1, 1 / 4]) = 113 / 4544 := by
  have hcoin : BlinnPhong.coin ratEnv [0, 1, 1 / 4] < 1 / 2 := by
    norm_num [BlinnPhong.coin, BlinnPhong.rng_after_wh, ratEnv]
  refine ⟨hcoin, ?_, ?_⟩
  · rw [Material.sample_wi, BlinnPhong.sample_wi_reflect ratEnv _ _ _ _ _ _ _ _ _
      (by norm_num [dot]) hcoin, ratEnv_drawn_wh]
    have hr : reflect (⟨3 / 5, 4 / 5, 0⟩ : Vec3 ℚ) ⟨0, 1, 0⟩ = ⟨3 / 5, -4 / 5, 0⟩ := by
      simp only [reflect, dot, Vec3.sub_def, Vec3.muls_def]
      norm_num
    rw [hr, BlinnPhong.reflection_brdf_of_ndotwi_nonpos _ _ _ _ _ _ (by norm_num [dot])]
    simp [BlinnPhong.rng_after_coin, BlinnPhong.rng_after_wh, ratEnv]
  · rw [ratEnv_drawn_wh]
    norm_num [BlinnPhong.reflect_local_p, ratEnv, dot]

/-- C10 as stated fails: a coating over a diffuse layer, the viewer below the
surface (`wo = (0, -1, 0)`, `n = (0, 1, 0)`).  The call assigns neither slot:
`wi` keeps `(9, 9, 9)`, and `p` comes back as the `-7`, or the `3`, that it
held before the call. -/
theorem sample_wi_net_contract_counterexample :
    Material.sample_wi ratEnv (.BlinnPhong 0 (4 / 100) (some (.Diffuse ⟨1, 1, 1⟩)))
          ⟨9, 9, 9⟩ ⟨0, -1, 0⟩ ⟨0, 1, 0⟩ (-7) [0, 1, 3 / 4, 0, 0, 1] =
        some ⟨⟨9, 9, 9⟩, -7, 0, [3 / 4, 0, 0, 1]⟩ ∧
      Material.sample_wi ratEnv (.BlinnPhong 0 (4 / 100) (some (.Diffuse ⟨1, 1, 1⟩)))
          ⟨9, 9, 9⟩ ⟨0, -1, 0⟩ ⟨0, 1, 0⟩ 3 [0, 1, 3 / 4, 0, 0, 1] =
        some ⟨⟨9, 9, 9⟩, 3, 0, [3 / 4, 0, 0, 1]⟩ ∧
      ¬ ((0 : ℚ) ≤ -7) := by
  refine ⟨?_, ?_, by norm_num⟩
  · rw [Material.sample_wi, BlinnPhong.sample_wi_below ratEnv _ _ _ _ _ _ _ _ _
      (by norm_num [dot])]
    simp [BlinnPhong.rng_after_wh, ratEnv]
  · rw [Material.sample_wi, BlinnPhong.sample_wi_below ratEnv _ _ _ _ _ _ _ _ _
      (by norm_num [dot])]
    simp [BlinnPhong.rng_after_wh, ratEnv]

/-- C10 as amended: for the body of `BlinnPhong::sample_wi` over a present
layer, whatever the instance's `reflection_brdf`, and for all `wo`, `n`, draws
and prior contents `wi0`, `p0` of the slots:
* if `dot(wo, n) ≤ 0` the call returns the zero vector and leaves `wi` and `p`
  as they were;
* if `dot(wo, n) > 0` and the coin selects the reflect branch, `wi` is written
  with `reflect(wo, wh)`;
* if `dot(wo, n) > 0` and the coin selects the refract branch, and the layer's
  `sample_wi` completes, `wi` is the layer's direction and `p` is half the
  density the layer reported;
* over a `Diffuse` layer (exact division, `M_PI > 0`) that `p` is half the
  density of `Diffuse::sample_wi`, which is `≥ 0` and does not involve `p0`. -/
theorem sample_wi_net_contract (env : Env K R) (shininess R0 : K)
    (refl : Vec3 K → Vec3 K → Vec3 K → Vec3 K) (layer : Material K) (color : Vec3 K)
    (wi0 wo n : Vec3 K) (p0 : K) (rng : R) :
    (dot wo n ≤ 0 →
        BlinnPhong.sample_wi env shininess R0 refl (some layer) wi0 wo n p0 rng =
          some ⟨wi0, p0, 0, BlinnPhong.rng_after_wh env rng⟩) ∧
      (0 < dot wo n → BlinnPhong.coin env rng < 1 / 2 →
        ∃ smp, BlinnPhong.sample_wi env shininess R0 refl (some layer) wi0 wo n p0 rng =
            some smp ∧
          smp.wi = reflect wo (BlinnPhong.drawn_wh env shininess n rng)) ∧
      (0 < dot wo n → ¬ BlinnPhong.coin env rng < 1 / 2 →
        ∀ sl, Material.sample_wi env layer wi0 wo n p0 (BlinnPhong.rng_after_coin env rng) =
            some sl →
          ∃ smp, BlinnPhong.sample_wi env shininess R0 refl (some layer) wi0 wo n p0 rng =
              some smp ∧
            smp.wi = sl.wi ∧ smp.p = sl.p * (1 / 2)) ∧
      (env.ExactDiv → 0 < env.pi → 0 < dot wo n → ¬ BlinnPhong.coin env rng < 1 / 2 →
        ∃ smp, BlinnPhong.sample_wi env shininess R0 refl (some (.Diffuse color)) wi0 wo n p0
              rng = some smp ∧
          smp.wi = (Diffuse.sample_wi env color wo n (BlinnPhong.rng_after_coin env rng)).wi ∧
          smp.p =
            (Diffuse.sample_wi env color wo n (BlinnPhong.rng_after_coin env rng)).p * (1 / 2) ∧
          0 ≤ smp.p) := by
  refine ⟨?_, ?_, ?_, ?_⟩
  · intro hwo
    exact BlinnPhong.sample_wi_below env shininess R0 refl _ wi0 wo n p0 rng hwo
  · intro hwo hcoin
    exact ⟨_, BlinnPhong.sample_wi_reflect env shininess R0 refl _ wi0 wo n p0 rng hwo hcoin,
      rfl⟩
  · intro hwo hcoin sl hl
    exact ⟨_, BlinnPhong.sample_wi_refract env shininess R0 refl layer wi0 wo n p0 rng sl hwo
      hcoin hl, rfl, rfl⟩
  · intro hdiv hpi hwo hcoin
    refine ⟨_, BlinnPhong.sample_wi_refract env shininess R0 refl (.Diffuse color) wi0 wo n p0
      rng _ hwo hcoin (by rw [Material.sample_wi]), rfl, rfl, ?_⟩
    exact mul_nonneg (Diffuse.sample_wi_p_nonneg env color wo n _ hdiv hpi) (by norm_num)

/-- Witness of the amended C10 on the rational instance: the viewer below the
surface, and the refract branch over a diffuse layer. -/
theorem sample_wi_net_contract_witness :
    dot (⟨0, -1, 0⟩ : Vec3 ℚ) ⟨0, 1, 0⟩ ≤ 0 ∧
      BlinnPhong.sample_wi ratEnv 0 (4 / 100) (BlinnPhong.reflection_brdf ratEnv 0 (4 / 100))
          (some (.Diffuse ⟨1, 1, 1⟩)) ⟨9, 9, 9⟩ ⟨0, -1, 0⟩ ⟨0, 1, 0⟩ (-7)
          [0, 1, 3 / 4, 0, 0, 1] =
        some ⟨⟨9, 9, 9⟩, -7, 0, BlinnPhong.rng_after_wh ratEnv [0, 1, 3 / 4, 0, 0, 1]⟩ ∧
      ratEnv.ExactDiv ∧ 0 < ratEnv.pi ∧ 0 < dot (⟨0, 1, 0⟩ : Vec3 ℚ) ⟨0, 1, 0⟩ ∧
      ¬ BlinnPhong.coin ratEnv [0, 1, 3 / 4, 0, 0, 1] < 1 / 2 ∧
      ∃ smp, BlinnPhong.sample_wi ratEnv 0 (4 / 100)
            (BlinnPhong.reflection_brdf ratEnv 0 (4 / 100)) (some (.Diffuse ⟨1, 1, 1⟩))
            ⟨9, 9, 9⟩ ⟨0, 1, 0⟩ ⟨0, 1, 0⟩ (-7) [0, 1, 3 / 4, 0, 0, 1] = some smp ∧
        smp.wi = (Diffuse.sample_wi ratEnv ⟨1, 1, 1⟩ ⟨0, 1, 0⟩ ⟨0, 1, 0⟩
          (BlinnPhong.rng_after_coin ratEnv [0, 1, 3 / 4, 0, 0, 1])).wi ∧
        smp.p = (Diffuse.sample_wi ratEnv ⟨1, 1, 1⟩ ⟨0, 1, 0⟩ ⟨0, 1, 0⟩
          (BlinnPhong.rng_after_coin ratEnv [0, 1, 3 / 4, 0, 0, 1])).p * (1 / 2) ∧
        0 ≤ smp.p :=
  have hcoin : ¬ BlinnPhong.coin ratEnv [0, 1, 3 / 4, 0, 0, 1] < 1 / 2 := by
    norm_num [BlinnPhong.coin, BlinnPhong.rng_after_wh, ratEnv]
  ⟨by norm_num [dot],
    (sample_wi_net_contract ratEnv 0 (4 / 100) (BlinnPhong.reflection_brdf ratEnv 0 (4 / 100))
      (.Diffuse ⟨1, 1, 1⟩) ⟨1, 1, 1⟩ ⟨9, 9, 9⟩ ⟨0, -1, 0⟩ ⟨0, 1, 0⟩ (-7)
      [0, 1, 3 / 4, 0, 0, 1]).1 (by norm_num [dot]),
    ratEnv_exactDiv, ratEnv_pi_pos, by norm_num [dot], hcoin,
    (sample_wi_net_contract ratEnv 0 (4 / 100) (BlinnPhong.reflection_brdf ratEnv 0 (4 / 100))
      (.Diffuse ⟨1, 1, 1⟩) ⟨1, 1, 1⟩ ⟨9, 9, 9⟩ ⟨0, 1, 0⟩ ⟨0, 1, 0⟩ (-7)
      [0, 1, 3 / 4, 0, 0, 1]).2.2.2 ratEnv_exactDiv ratEnv_pi_pos (by norm_num [dot]) hcoin⟩

/-- The call of `Diffuse::sample_wi` on the rational instance with the local
sample `(0, 0, 1)` about the normal `(0, 1, 0)`: the direction is the normal and
the density is `1 / M_PI`. -/
theorem ratEnv_diffuse_sample (color wo : Vec3 ℚ) :
    Diffuse.sample_wi ratEnv color wo ⟨0, 1, 0⟩ [0, 0, 1] =
      ⟨⟨0, 1, 0⟩, 113 / 355, Diffuse.f ratEnv color ⟨0, 1, 0⟩ wo ⟨0, 1, 0⟩, []⟩ := by
  have hwi : ratEnv.normalize
      ((0 : ℚ) * ratEnv.normalize (ratEnv.perpendicular (⟨0, 1, 0⟩ : Vec3 ℚ)) +
        (0 : ℚ) * ratEnv.normalize
          (cross (ratEnv.normalize (ratEnv.perpendicular (⟨0, 1, 0⟩ : Vec3 ℚ))) ⟨0, 1, 0⟩) +
        (1 : ℚ) * (⟨0, 1, 0⟩ : Vec3 ℚ)) = ⟨0, 1, 0⟩ := by
    simp [ratEnv, Env.normalize, dot, cross, ratRoot_one]
  have hs : ratEnv.cosineSampleHemisphere [0, 0, 1] = (⟨0, 0, 1⟩, []) := by
    simp [ratEnv]
  simp only [Diffuse.sample_wi, hs, hwi]
  norm_num [dot, ratEnv]

/-- C11, the code at a failing input: a coating with `R0 = 0.04` over a white
diffuse layer, `wo = n = (0, 1, 0)`, the draws `0, 1, 0.75` (the coin selects
the refract branch) and then the local sample `(0, 0, 1)`.  The layer samples
`wi = (0, 1, 0)` with value `113/355`; the call returns `1.04` times that
value, `2938/8875`, where `refraction_brdf` at the written `wi` is `0.96`
times it, `2712/8875`. -/
theorem sample_wi_refract_value_mismatch :
    ¬ BlinnPhong.coin ratEnv [0, 1, 3 / 4, 0, 0, 1] < 1 / 2 ∧
      Material.sample_wi ratEnv (.BlinnPhong 0 (4 / 100) (some (.Diffuse ⟨1, 1, 1⟩)))
          ⟨9, 9, 9⟩ ⟨0, 1, 0⟩ ⟨0, 1, 0⟩ (-7) [0, 1, 3 / 4, 0, 0, 1] =
        some ⟨⟨0, 1, 0⟩, 113 / 710, splat (2938 / 8875), []⟩ ∧
      BlinnPhong.refraction_brdf ratEnv (4 / 100) (some (.Diffuse ⟨1, 1, 1⟩))
          ⟨0, 1, 0⟩ ⟨0, 1, 0⟩ ⟨0, 1, 0⟩ = splat (2712 / 8875) := by
  have hcoin : ¬ BlinnPhong.coin ratEnv [0, 1, 3 / 4, 0, 0, 1] < 1 / 2 := by
    norm_num [BlinnPhong.coin, BlinnPhong.rng_after_wh, ratEnv]
  have hrng : BlinnPhong.rng_after_coin ratEnv [0, 1, 3 / 4, 0, 0, 1] = [0, 0, 1] := by
    simp [BlinnPhong.rng_after_coin, BlinnPhong.rng_after_wh, ratEnv]
  have hwh : BlinnPhong.drawn_wh ratEnv 0 ⟨0, 1, 0⟩ [0, 1, 3 / 4, 0, 0, 1] = ⟨0, 1, 0⟩ := by
    simp [BlinnPhong.drawn_wh, BlinnPhong.sampled_wh, ratEnv, Env.normalize, dot, cross,
      ratRoot_one, ratRoot_zero]
  have hf : Diffuse.f ratEnv ⟨1, 1, 1⟩ ⟨0, 1, 0⟩ ⟨0, 1, 0⟩ ⟨0, 1, 0⟩ = splat (113 / 355) := by
    norm_num [Diffuse.f, dot, ratEnv]
  have hl : Material.sample_wi ratEnv (.Diffuse ⟨1, 1, 1⟩) ⟨9, 9, 9⟩ ⟨0, 1, 0⟩ ⟨0, 1, 0⟩ (-7)
      (BlinnPhong.rng_after_coin ratEnv [0, 1, 3 / 4, 0, 0, 1]) =
      some ⟨⟨0, 1, 0⟩, 113 / 355, splat (113 / 355), []⟩ := by
    rw [Material.sample_wi, hrng, ratEnv_diffuse_sample, hf]
  have h5 : ((5 : ℚ).num).toNat = 5 := by
    rw [show (5 : ℚ) = ((5 : ℕ) : ℚ) by norm_num, Rat.num_natCast]
    rfl
  refine ⟨hcoin, ?_, ?_⟩
  · rw [Material.sample_wi, BlinnPhong.sample_wi_refract ratEnv _ _ _ _ _ _ _ _ _ _
      (by norm_num [dot]) hcoin hl, hwh]
    norm_num [dot, ratEnv, h5]
  · rw [BlinnPhong.refraction_brdf]
    simp only [Material.f, hf]
    have hn : ratEnv.normalize ((⟨0, 1, 0⟩ : Vec3 ℚ) + ⟨0, 1, 0⟩) = ⟨0, 1, 0⟩ := by
      have h4 : (0 : ℚ) * 0 + (1 + 1) * (1 + 1) + 0 * 0 = 4 := by norm_num
      simp only [Env.normalize, dot, Vec3.add_def, Vec3.muls_def, add_zero, h4]
      norm_num [ratEnv, ratRoot_four]
    rw [hn]
    norm_num [BlinnPhong.F, dot, ratEnv, h5]

/-- C12, the code at a failing input: a coating without a layer,
`wo = n = (0, 1, 0)` and the draws `0, 1, 0.75`.  The coin selects the refract
branch, which calls `sample_wi` through the `NULL` `refraction_layer`: the call
does not complete, while `refraction_brdf` of the same material tests the
pointer and returns the zero vector. -/
theorem sample_wi_null_layer_dereferenced :
    ¬ BlinnPhong.coin ratEnv [0, 1, 3 / 4] < 1 / 2 ∧
      Material.sample_wi ratEnv (.BlinnPhong 0 (4 / 100) none) ⟨9, 9, 9⟩ ⟨0, 1, 0⟩ ⟨0, 1, 0⟩
          (-7) [0, 1, 3 / 4] = none ∧
      BlinnPhong.refraction_brdf ratEnv (4 / 100) none ⟨0, 1, 0⟩ ⟨0, 1, 0⟩ ⟨0, 1, 0⟩ = 0 := by
  have hcoin : ¬ BlinnPhong.coin ratEnv [0, 1, 3 / 4] < 1 / 2 := by
    norm_num [BlinnPhong.coin, BlinnPhong.rng_after_wh, ratEnv]
  refine ⟨hcoin, ?_, ?_⟩
  · rw [Material.sample_wi]
    exact BlinnPhong.sample_wi_refract_null ratEnv _ _ _ _ _ _ _ _ (by norm_num [dot]) hcoin
  · simp [BlinnPhong.refraction_brdf]

end Sampling

/-! ## Sampling of the Lambertian lobe and of the blend -/

section DiffuseSampling

variable {K R : Type} [LinearOrderedField K]

open Vec3

/-- C13 (sampling consistency of `Diffuse`): with exact division and
`M_PI ≠ 0`, for every `n`, `wo` and every state of the random source, the call
completes and writes
`wi = normalize(sample.x * tangent + sample.y * bitangent + sample.z * n)` for
the local sample drawn; the reported `p` is `max(0, dot(n, wi)) / M_PI`, which
is `0` when `dot(wi, n) ≤ 0`; the value returned is `f(wi, wo, n)` at that
`wi`; and a reported `p = 0` comes with the zero vector as value. -/
theorem diffuse_sample_wi_consistency (env : Env K R) (color wi0 wo n : Vec3 K) (p0 : K)
    (rng : R) (hdiv : env.ExactDiv) (hpi : env.pi ≠ 0) :
    ∃ smp, Material.sample_wi env (.Diffuse color) wi0 wo n p0 rng = some smp ∧
      smp.wi = env.normalize
        ((env.cosineSampleHemisphere rng).1.x * env.normalize (env.perpendicular n) +
          (env.cosineSampleHemisphere rng).1.y *
            env.normalize (cross (env.normalize (env.perpendicular n)) n) +
          (env.cosineSampleHemisphere rng).1.z * n) ∧
      smp.p = max 0 (dot n smp.wi) / env.pi ∧
      (dot smp.wi n ≤ 0 → smp.p = 0) ∧
      smp.value = Diffuse.f env color smp.wi wo n ∧
      (smp.p = 0 → smp.value = 0) ∧
      smp.rng = (env.cosineSampleHemisphere rng).2 := by
  refine ⟨Diffuse.sample_wi env color wo n rng, by rw [Material.sample_wi], rfl, ?_, ?_, rfl,
    ?_, rfl⟩
  · simp only [Diffuse.sample_wi]
    split_ifs with h
    · rw [max_eq_left (Vec3.dot_comm _ n ▸ h), zero_div]
    · rw [hdiv _ _ hpi]
  · intro h
    simp only [Diffuse.sample_wi] at h ⊢
    rw [if_pos h]
  · intro h
    simp only [Diffuse.sample_wi] at h ⊢
    split_ifs at h with h1
    · rw [Diffuse.f, if_pos h1]
      rfl
    · exfalso
      rw [hdiv _ _ hpi] at h
      have hpos : 0 < dot n (env.normalize
          ((env.cosineSampleHemisphere rng).1.x * env.normalize (env.perpendicular n) +
            (env.cosineSampleHemisphere rng).1.y *
              env.normalize (cross (env.normalize (env.perpendicular n)) n) +
            (env.cosineSampleHemisphere rng).1.z * n)) := by
        rw [Vec3.dot_comm]
        exact not_le.mp h1
      rcases div_eq_zero_iff.mp h with h2 | h2
      · rw [max_eq_right hpos.le] at h2
        exact absurd h2 (ne_of_gt hpos)
      · exact hpi h2

/-- Witness of C13: the local sample `(0, 0, 1)` about the normal `(0, 1, 0)` on
the rational instance. -/
theorem diffuse_sample_wi_consistency_witness :
    ratEnv.ExactDiv ∧ ratEnv.pi ≠ 0 ∧
      ∃ smp, Material.sample_wi ratEnv (.Diffuse ⟨1, 1, 1⟩) ⟨9, 9, 9⟩ ⟨0, 1, 0⟩ ⟨0, 1, 0⟩ (-7)
          [0, 0, 1] = some smp ∧
        smp.p = max 0 (dot ⟨0, 1, 0⟩ smp.wi) / ratEnv.pi ∧
        smp.value = Diffuse.f ratEnv ⟨1, 1, 1⟩ smp.wi ⟨0, 1, 0⟩ ⟨0, 1, 0⟩ :=
  ⟨ratEnv_exactDiv, ratEnv_pi_ne_zero,
    (diffuse_sample_wi_consistency ratEnv ⟨1, 1, 1⟩ ⟨9, 9, 9⟩ ⟨0, 1, 0⟩ ⟨0, 1, 0⟩ (-7) [0, 0, 1]
      ratEnv_exactDiv ratEnv_pi_ne_zero).imp
      (fun _ h => ⟨h.1, h.2.2.1, h.2.2.2.2.1⟩)⟩

/-- C16 (`LinearBlend::sample_wi` is a stub): for every `w`, every pair of
sub-materials, every `wo`, `n`, and every prior content of the slots, the call
completes, reports `p = 0`, returns the zero vector, leaves `wi` as it was and
leaves the random source in the state it found it; the result is the same for
every other weight and pair of sub-materials. -/
theorem linear_blend_sample_wi_stub (env : Env K R) (w w1 : K) (A B A1 B1 : Material K)
    (wi wo n : Vec3 K) (p : K) (rng : R) :
    Material.sample_wi env (.LinearBlend w A B) wi wo n p rng = some ⟨wi, 0, 0, rng⟩ ∧
      Material.sample_wi env (.LinearBlend w A B) wi wo n p rng =
        Material.sample_wi env (.LinearBlend w1 A1 B1) wi wo n p rng := by
  refine ⟨?_, ?_⟩
  · rw [Material.sample_wi]
    rfl
  · rw [Material.sample_wi, Material.sample_wi]

end DiffuseSampling

/-! ## The half-vector of two unit directions -/

section HalfVector

variable {K R : Type} [LinearOrderedField K]

open Vec3

/-- The squared length of the sum of two unit vectors. -/
theorem Vec3.dot_add_self (wi wo : Vec3 K) (hwi : dot wi wi = 1) (hwo : dot wo wo = 1) :
    dot (wi + wo) (wi + wo) = 2 * (1 + dot wi wo) := by
  simp only [dot, Vec3.add_def] at hwi hwo ⊢
  linear_combination hwi + hwo

/-- Cauchy and Schwarz for two unit vectors. -/
theorem Vec3.dot_le_one (wi wo : Vec3 K) (hwi : dot wi wi = 1) (hwo : dot wo wo = 1) :
    dot wi wo ≤ 1 := by
  simp only [dot] at hwi hwo ⊢
  nlinarith [sq_nonneg (wi.x - wo.x), sq_nonneg (wi.y - wo.y), sq_nonneg (wi.z - wo.z)]

/-- The cosine between the half-vector and a unit `wi`, in terms of what
`inversesqrt` returned. -/
theorem Env.dot_normalize_left (env : Env K R) (wi wo : Vec3 K) (hwi : dot wi wi = 1) :
    dot (env.normalize (wi + wo)) wi =
      env.inversesqrt (dot (wi + wo) (wi + wo)) * (1 + dot wi wo) := by
  simp only [Env.normalize, dot, Vec3.add_def, Vec3.muls_def] at hwi ⊢
  linear_combination (env.inversesqrt
    ((wi.x + wo.x) * (wi.x + wo.x) + (wi.y + wo.y) * (wi.y + wo.y) +
      (wi.z + wo.z) * (wi.z + wo.z))) * hwi

/-- The cosine between a unit `wo` and the half-vector, in terms of what
`inversesqrt` returned. -/
theorem Env.dot_normalize_right (env : Env K R) (wi wo : Vec3 K) (hwo : dot wo wo = 1) :
    dot wo (env.normalize (wi + wo)) =
      env.inversesqrt (dot (wi + wo) (wi + wo)) * (1 + dot wi wo) := by
  simp only [Env.normalize, dot, Vec3.add_def, Vec3.muls_def] at hwo ⊢
  linear_combination (env.inversesqrt
    ((wi.x + wo.x) * (wi.x + wo.x) + (wi.y + wo.y) * (wi.y + wo.y) +
      (wi.z + wo.z) * (wi.z + wo.z))) * hwo

/-- A squared length is never negative. -/
theorem Vec3.dot_self_nonneg (v : Vec3 K) : 0 ≤ dot v v :=
  add_nonneg (add_nonneg (mul_self_nonneg v.x) (mul_self_nonneg v.y)) (mul_self_nonneg v.z)

/-- Only the zero vector has squared length zero. -/
theorem Vec3.eq_zero_of_dot_self (v : Vec3 K) (h : dot v v = 0) :
    v.x = 0 ∧ v.y = 0 ∧ v.z = 0 := by
  have hx := mul_self_nonneg v.x
  have hy := mul_self_nonneg v.y
  have hz := mul_self_nonneg v.z
  simp only [dot] at h
  refine ⟨?_, ?_, ?_⟩
  · exact mul_self_eq_zero.mp (le_antisymm (by linarith) hx)
  · exact mul_self_eq_zero.mp (le_antisymm (by linarith) hy)
  · exact mul_self_eq_zero.mp (le_antisymm (by linarith) hz)

/-- Where `inversesqrt` is exact at the squared length of `wi + wo` (when that
is positive), the clamped cosine `whdotwi` of unit directions lies in `[0, 1]`. -/
theorem Env.whdotwi_le_one (env : Env K R) (wi wo : Vec3 K)
    (hwi : dot wi wi = 1) (hwo : dot wo wo = 1)
    (hsq : 0 < dot (wi + wo) (wi + wo) → env.InvSqrtAt (dot (wi + wo) (wi + wo))) :
    max 0 (dot (env.normalize (wi + wo)) wi) ≤ 1 := by
  apply max_le zero_le_one
  rw [env.dot_normalize_left wi wo hwi]
  have hx := Vec3.dot_add_self wi wo hwi hwo
  have ht := Vec3.dot_le_one wi wo hwi hwo
  have hnn := Vec3.dot_self_nonneg (wi + wo)
  by_cases hpos : 0 < dot (wi + wo) (wi + wo)
  · obtain ⟨hc, hcc⟩ := hsq hpos
    generalize env.inversesqrt (dot (wi + wo) (wi + wo)) = c at hc hcc ⊢
    rw [hx] at hcc hpos
    generalize dot wi wo = t at ht hcc hpos ⊢
    have hyy : (c * (1 + t)) * (c * (1 + t)) = (1 + t) / 2 := by
      linear_combination ((1 + t) / 2) * hcc
    by_contra hgt
    have hgt1 := not_le.mp hgt
    nlinarith [mul_pos (sub_pos.mpr hgt1) (sub_pos.mpr hgt1)]
  · have h1 : 1 + dot wi wo = 0 := by
      rw [hx] at hpos hnn
      linarith
    rw [h1, mul_zero]
    exact zero_le_one

/-- When both clamped cosines with the normal are positive, the sum `wi + wo`
is not the zero vector. -/
theorem Vec3.dot_add_self_pos (wi wo n : Vec3 K)
    (hg : 0 < 4 * max 0 (dot n wo) * max 0 (dot n wi)) :
    0 < dot (wi + wo) (wi + wo) := by
  have ho : 0 < dot n wo := by
    by_contra h
    rw [max_eq_left (not_lt.mp h)] at hg
    simp at hg
  have hi : 0 < dot n wi := by
    by_contra h
    rw [max_eq_left (not_lt.mp h)] at hg
    simp at hg
  rcases (Vec3.dot_self_nonneg (wi + wo)).lt_or_eq with h | h
  · exact h
  · exfalso
    obtain ⟨hx, hy, hz⟩ := Vec3.eq_zero_of_dot_self (wi + wo) h.symm
    simp only [Vec3.add_def] at hx hy hz
    simp only [dot] at ho hi
    have : n.x * (wi.x + wo.x) + n.y * (wi.y + wo.y) + n.z * (wi.z + wo.z) = 0 := by
      rw [hx, hy, hz]
      ring
    linarith

/-- For unit directions that pass the guard of `reflection_brdf`, the cosine
`dot(wo, wh)` is positive as soon as `inversesqrt` returned a positive number. -/
theorem Env.wodotwh_pos (env : Env K R) (wi wo n : Vec3 K)
    (hwi : dot wi wi = 1) (hwo : dot wo wo = 1)
    (hc : 0 < env.inversesqrt (dot (wi + wo) (wi + wo)))
    (hg : 0 < 4 * max 0 (dot n wo) * max 0 (dot n wi)) :
    0 < dot wo (env.normalize (wi + wo)) := by
  rw [env.dot_normalize_right wi wo hwo]
  have hpos := Vec3.dot_add_self_pos wi wo n hg
  rw [Vec3.dot_add_self wi wo hwi hwo] at hpos
  exact mul_pos hc (by linarith)

/-- The Fresnel term of unit directions lies between `R0` and `1`. -/
theorem BlinnPhong.F_bounds (env : Env K R) (R0 : K) (wi wo : Vec3 K)
    (hR1 : R0 ≤ 1) (hwi : dot wi wi = 1) (hwo : dot wo wo = 1)
    (hpow : ∀ x : K, 0 ≤ x → x ≤ 1 → 0 ≤ env.pow x 5 ∧ env.pow x 5 ≤ 1)
    (hsq : 0 < dot (wi + wo) (wi + wo) → env.InvSqrtAt (dot (wi + wo) (wi + wo))) :
    R0 ≤ BlinnPhong.F env R0 (max 0 (dot (env.normalize (wi + wo)) wi)) ∧
      BlinnPhong.F env R0 (max 0 (dot (env.normalize (wi + wo)) wi)) ≤ 1 := by
  have hle := env.whdotwi_le_one wi wo hwi hwo hsq
  have hge : (0 : K) ≤ max 0 (dot (env.normalize (wi + wo)) wi) := le_max_left _ _
  obtain ⟨hp0, hp1⟩ := hpow (1 - max 0 (dot (env.normalize (wi + wo)) wi)) (by linarith)
    (by linarith)
  simp only [BlinnPhong.F]
  constructor
  · nlinarith [mul_nonneg (sub_nonneg.mpr hR1) hp0]
  · nlinarith [mul_nonneg (sub_nonneg.mpr hR1) (sub_nonneg.mpr hp1)]

/-- C19 (the coating never amplifies the substrate): for `0 ≤ R0 ≤ 1`, unit
vectors `wi`, `wo`, every `n` and every layer `L` whose `f(wi, wo, n)` is `≥ 0`
on every channel, the Fresnel term satisfies `R0 ≤ F ≤ 1` and, channel by
channel, `0 ≤ refraction_brdf(wi, wo, n) ≤ (1 - R0) * L.f(wi, wo, n) ≤
L.f(wi, wo, n)`.  Assumed of the numeric library: `pow(x, 5)` lies in `[0, 1]`
for `x` in `[0, 1]`, and `inversesqrt` is exact at the squared length of
`wi + wo` when that is positive. -/
theorem refraction_brdf_never_amplifies (env : Env K R) (R0 : K) (L : Material K)
    (wi wo n : Vec3 K) (hR0 : 0 ≤ R0) (hR1 : R0 ≤ 1)
    (hwi : dot wi wi = 1) (hwo : dot wo wo = 1)
    (hL : (Material.f env L wi wo n).Nonneg)
    (hpow : ∀ x : K, 0 ≤ x → x ≤ 1 → 0 ≤ env.pow x 5 ∧ env.pow x 5 ≤ 1)
    (hsq : 0 < dot (wi + wo) (wi + wo) → env.InvSqrtAt (dot (wi + wo) (wi + wo))) :
    R0 ≤ BlinnPhong.F env R0 (max 0 (dot (env.normalize (wi + wo)) wi)) ∧
      BlinnPhong.F env R0 (max 0 (dot (env.normalize (wi + wo)) wi)) ≤ 1 ∧
      (BlinnPhong.refraction_brdf env R0 (some L) wi wo n).Nonneg ∧
      (BlinnPhong.refraction_brdf env R0 (some L) wi wo n).Le
        ((1 - R0) * Material.f env L wi wo n) ∧
      ((1 - R0) * Material.f env L wi wo n).Le (Material.f env L wi wo n) := by
  obtain ⟨hF0, hF1⟩ := BlinnPhong.F_bounds env R0 wi wo hR1 hwi hwo hpow hsq
  obtain ⟨hx, hy, hz⟩ := hL
  have h1 : 0 ≤ 1 - BlinnPhong.F env R0 (max 0 (dot (env.normalize (wi + wo)) wi)) :=
    sub_nonneg.mpr hF1
  have h2 : 1 - BlinnPhong.F env R0 (max 0 (dot (env.normalize (wi + wo)) wi)) ≤ 1 - R0 :=
    sub_le_sub_left hF0 1
  have h3 : 1 - R0 ≤ 1 := by linarith
  refine ⟨hF0, hF1, ?_, ?_, ?_⟩
  · rw [BlinnPhong.refraction_brdf]
    exact ⟨mul_nonneg h1 hx, mul_nonneg h1 hy, mul_nonneg h1 hz⟩
  · rw [BlinnPhong.refraction_brdf]
    exact ⟨mul_le_mul_of_nonneg_right h2 hx, mul_le_mul_of_nonneg_right h2 hy,
      mul_le_mul_of_nonneg_right h2 hz⟩
  · exact ⟨mul_le_of_le_one_left hx h3, mul_le_of_le_one_left hy h3,
      mul_le_of_le_one_left hz h3⟩

/-- Witness of C19: a coating with `R0 = 0.04` over a white diffuse layer at
normal incidence, on the rational instance. -/
theorem refraction_brdf_never_amplifies_witness :
    (0 : ℚ) ≤ 4 / 100 ∧ (4 / 100 : ℚ) ≤ 1 ∧ dot (⟨0, 1, 0⟩ : Vec3 ℚ) ⟨0, 1, 0⟩ = 1 ∧
      (Material.f ratEnv (.Diffuse ⟨1, 1, 1⟩) ⟨0, 1, 0⟩ ⟨0, 1, 0⟩ ⟨0, 1, 0⟩).Nonneg ∧
      (∀ x : ℚ, 0 ≤ x → x ≤ 1 → 0 ≤ ratEnv.pow x 5 ∧ ratEnv.pow x 5 ≤ 1) ∧
      ratEnv.InvSqrtAt
        (dot ((⟨0, 1, 0⟩ : Vec3 ℚ) + ⟨0, 1, 0⟩) ((⟨0, 1, 0⟩ : Vec3 ℚ) + ⟨0, 1, 0⟩)) ∧
      (BlinnPhong.refraction_brdf ratEnv (4 / 100) (some (.Diffuse ⟨1, 1, 1⟩))
        ⟨0, 1, 0⟩ ⟨0, 1, 0⟩ ⟨0, 1, 0⟩).Le
        ((1 - 4 / 100 : ℚ) * Material.f ratEnv (.Diffuse ⟨1, 1, 1⟩) ⟨0, 1, 0⟩ ⟨0, 1, 0⟩ ⟨0, 1, 0⟩) :=
  have hL : (Material.f ratEnv (.Diffuse ⟨1, 1, 1⟩) ⟨0, 1, 0⟩ ⟨0, 1, 0⟩ ⟨0, 1, 0⟩).Nonneg := by
    norm_num [Material.f, Diffuse.f, dot, ratEnv, Vec3.Nonneg]
  have hpow : ∀ x : ℚ, 0 ≤ x → x ≤ 1 → 0 ≤ ratEnv.pow x 5 ∧ ratEnv.pow x 5 ≤ 1 :=
    fun x h0 h1 => ⟨ratEnv_pow_nonneg x 5 h0, ratEnv_pow_five_le_one x h0 h1⟩
  ⟨by norm_num, by norm_num, by norm_num [dot], hL, hpow, ratEnv_invSqrtAt_double,
    (refraction_brdf_never_amplifies ratEnv (4 / 100) (.Diffuse ⟨1, 1, 1⟩) ⟨0, 1, 0⟩ ⟨0, 1, 0⟩
      ⟨0, 1, 0⟩ (by norm_num) (by norm_num) (by norm_num [dot]) (by norm_num [dot]) hL hpow
      (fun _ => ratEnv_invSqrtAt_double)).2.2.2.1⟩

end HalfVector

/-! ## Non-negative values -/

section NonNegative

variable {K R : Type} [LinearOrderedField K]

open Vec3

theorem Vec3.nonneg_add {a b : Vec3 K} (ha : a.Nonneg) (hb : b.Nonneg) : (a + b).Nonneg :=
  ⟨add_nonneg ha.1 hb.1, add_nonneg ha.2.1 hb.2.1, add_nonneg ha.2.2 hb.2.2⟩

theorem Vec3.nonneg_smul {c : K} {a : Vec3 K} (hc : 0 ≤ c) (ha : a.Nonneg) : (c * a).Nonneg :=
  ⟨mul_nonneg hc ha.1, mul_nonneg hc ha.2.1, mul_nonneg hc ha.2.2⟩

theorem Vec3.nonneg_mul {a b : Vec3 K} (ha : a.Nonneg) (hb : b.Nonneg) : (a * b).Nonneg :=
  ⟨mul_nonneg ha.1 hb.1, mul_nonneg ha.2.1 hb.2.1, mul_nonneg ha.2.2 hb.2.2⟩

theorem Vec3.nonneg_splat {c : K} (hc : 0 ≤ c) : (Vec3.splat c).Nonneg :=
  ⟨hc, hc, hc⟩

/-- The value of `Diffuse::f` is `≥ 0` for a color that is. -/
theorem Diffuse.f_nonneg (env : Env K R) (color wi wo n : Vec3 K) (hcol : color.Nonneg)
    (hdiv : env.ExactDiv) (hpi : 0 < env.pi) : (Diffuse.f env color wi wo n).Nonneg := by
  simp only [Diffuse.f]
  split_ifs
  · exact Vec3.nonneg_splat le_rfl
  · exact Vec3.nonneg_splat le_rfl
  · apply Vec3.nonneg_smul _ hcol
    rw [hdiv _ _ (ne_of_gt hpi)]
    exact div_nonneg zero_le_one hpi.le

/-- The reflection lobe of unit directions is `≥ 0`. -/
theorem BlinnPhong.reflection_brdf_nonneg (env : Env K R) (shininess R0 : K)
    (wi wo n : Vec3 K) (hs : 0 ≤ shininess) (hR0 : 0 ≤ R0) (hR1 : R0 ≤ 1)
    (hwi : dot wi wi = 1) (hwo : dot wo wo = 1) (hdiv : env.ExactDiv) (hpi : 0 < env.pi)
    (hpow0 : ∀ x e : K, 0 ≤ x → 0 ≤ env.pow x e)
    (hpow1 : ∀ x : K, 0 ≤ x → x ≤ 1 → env.pow x 5 ≤ 1)
    (hsq : 0 < dot (wi + wo) (wi + wo) → env.InvSqrtAt (dot (wi + wo) (wi + wo))) :
    (BlinnPhong.reflection_brdf env shininess R0 wi wo n).Nonneg := by
  simp only [BlinnPhong.reflection_brdf]
  split_ifs with hg
  · exact Vec3.nonneg_splat le_rfl
  · have hg1 : 0 < 4 * max 0 (dot n wo) * max 0 (dot n wi) := not_le.mp hg
    have hwd : 0 < max 0 (dot wo (env.normalize (wi + wo))) :=
      lt_max_of_lt_right (env.wodotwh_pos wi wo n hwi hwo
        (hsq (Vec3.dot_add_self_pos wi wo n hg1)).1 hg1)
    have hF : 0 ≤ BlinnPhong.F env R0 (max 0 (dot (env.normalize (wi + wo)) wi)) :=
      hR0.trans (BlinnPhong.F_bounds env R0 wi wo hR1 hwi hwo
        (fun x h0 h1 => ⟨hpow0 x 5 h0, hpow1 x h0 h1⟩) hsq).1
    have h2pi : 0 < 2 * env.pi := by linarith
    have hD : 0 ≤ BlinnPhong.D env shininess (max 0 (dot n (env.normalize (wi + wo)))) := by
      simp only [BlinnPhong.D]
      rw [hdiv _ _ (ne_of_gt h2pi)]
      exact mul_nonneg (div_nonneg (by linarith) h2pi.le) (hpow0 _ _ (le_max_left _ _))
    have hG : 0 ≤ BlinnPhong.G env (max 0 (dot n (env.normalize (wi + wo)))) (max 0 (dot n wo))
        (max 0 (dot n wi)) (max 0 (dot wo (env.normalize (wi + wo)))) := by
      simp only [BlinnPhong.G, BlinnPhong.A, BlinnPhong.B]
      rw [hdiv _ _ (ne_of_gt hwd), hdiv _ _ (ne_of_gt hwd)]
      have hnum : ∀ c : K, 0 ≤ 2 * max 0 (dot n (env.normalize (wi + wo))) * max 0 c :=
        fun c => mul_nonneg (mul_nonneg zero_le_two (le_max_left _ _)) (le_max_left _ _)
      exact le_min zero_le_one
        (le_min (div_nonneg (hnum _) hwd.le) (div_nonneg (hnum _) hwd.le))
    apply Vec3.nonneg_splat
    rw [hdiv _ _ (ne_of_gt hg1)]
    exact div_nonneg (mul_nonneg (mul_nonneg hF hD) hG) hg1.le

mutual

theorem Material.f_nonneg_of_inRange (env : Env K R) (wi wo n : Vec3 K)
    (hwi : dot wi wi = 1) (hwo : dot wo wo = 1) (hdiv : env.ExactDiv) (hpi : 0 < env.pi)
    (hpow0 : ∀ x e : K, 0 ≤ x → 0 ≤ env.pow x e)
    (hpow1 : ∀ x : K, 0 ≤ x → x ≤ 1 → env.pow x 5 ≤ 1)
    (hsq : 0 < dot (wi + wo) (wi + wo) → env.InvSqrtAt (dot (wi + wo) (wi + wo))) :
    ∀ m : Material K, m.ParamsInRange → (Material.f env m wi wo n).Nonneg
  | .Diffuse color, h => by
      rw [Material.ParamsInRange] at h
      rw [Material.f]
      exact Diffuse.f_nonneg env color wi wo n h hdiv hpi
  | .BlinnPhong shininess R0 layer, h => by
      rw [Material.ParamsInRange] at h
      obtain ⟨hs, hR0, hR1, hl⟩ := h
      rw [Material.f]
      exact Vec3.nonneg_add
        (BlinnPhong.reflection_brdf_nonneg env shininess R0 wi wo n hs hR0 hR1 hwi hwo hdiv hpi
          hpow0 hpow1 hsq)
        (BlinnPhong.refraction_brdf_nonneg_of_inRange env wi wo n hwi hwo hdiv hpi hpow0 hpow1
          hsq R0 hR1 layer hl)
  | .BlinnPhongMetal color shininess R0 layer, h => by
      rw [Material.ParamsInRange] at h
      obtain ⟨hc, hs, hR0, hR1, _⟩ := h
      rw [Material.f, BlinnPhongMetal.reflection_brdf, BlinnPhongMetal.refraction_brdf]
      exact Vec3.nonneg_add
        (Vec3.nonneg_mul
          (BlinnPhong.reflection_brdf_nonneg env shininess R0 wi wo n hs hR0 hR1 hwi hwo hdiv hpi
            hpow0 hpow1 hsq) hc)
        (Vec3.nonneg_splat le_rfl)
  | .LinearBlend w bsdf0 bsdf1, h => by
      rw [Material.ParamsInRange] at h
      obtain ⟨hw0, hw1, h0, h1⟩ := h
      rw [Material.f]
      exact Vec3.nonneg_add
        (Vec3.nonneg_smul hw0
          (Material.f_nonneg_of_inRange env wi wo n hwi hwo hdiv hpi hpow0 hpow1 hsq bsdf0 h0))
        (Vec3.nonneg_smul (sub_nonneg.mpr hw1)
          (Material.f_nonneg_of_inRange env wi wo n hwi hwo hdiv hpi hpow0 hpow1 hsq bsdf1 h1))

theorem BlinnPhong.refraction_brdf_nonneg_of_inRange (env : Env K R) (wi wo n : Vec3 K)
    (hwi : dot wi wi = 1) (hwo : dot wo wo = 1) (hdiv : env.ExactDiv) (hpi : 0 < env.pi)
    (hpow0 : ∀ x e : K, 0 ≤ x → 0 ≤ env.pow x e)
    (hpow1 : ∀ x : K, 0 ≤ x → x ≤ 1 → env.pow x 5 ≤ 1)
    (hsq : 0 < dot (wi + wo) (wi + wo) → env.InvSqrtAt (dot (wi + wo) (wi + wo)))
    (R0 : K) (hR1 : R0 ≤ 1) :
    ∀ layer : Option (Material K), Material.LayerInRange layer →
      (BlinnPhong.refraction_brdf env R0 layer wi wo n).Nonneg
  | none, _ => by
      rw [BlinnPhong.refraction_brdf]
      exact Vec3.nonneg_splat le_rfl
  | some m, h => by
      rw [Material.LayerInRange] at h
      rw [BlinnPhong.refraction_brdf]
      exact Vec3.nonneg_smul
        (sub_nonneg.mpr (BlinnPhong.F_bounds env R0 wi wo hR1 hwi hwo
          (fun x h0 h1 => ⟨hpow0 x 5 h0, hpow1 x h0 h1⟩) hsq).2)
        (Material.f_nonneg_of_inRange env wi wo n hwi hwo hdiv hpi hpow0 hpow1 hsq m h)

end

/-- C14 (non-negative BRDF values): for every material tree whose parameters
are in range (`color ≥ 0` on every channel, `0 ≤ R0 ≤ 1`, `shininess ≥ 0`,
`0 ≤ w ≤ 1`) and for all unit vectors `wi`, `wo` and every `n`, every channel
of `f(wi, wo, n)` is `≥ 0`.  Assumed of the numeric library: exact division,
`M_PI > 0`, `pow(x, e) ≥ 0` for `x ≥ 0`, `pow(x, 5) ≤ 1` for `x` in `[0, 1]`,
and `inversesqrt` exact at the squared length of `wi + wo` when that is
positive. -/
theorem material_f_nonneg (env : Env K R) (m : Material K) (wi wo n : Vec3 K)
    (hm : m.ParamsInRange) (hwi : dot wi wi = 1) (hwo : dot wo wo = 1)
    (hdiv : env.ExactDiv) (hpi : 0 < env.pi)
    (hpow0 : ∀ x e : K, 0 ≤ x → 0 ≤ env.pow x e)
    (hpow1 : ∀ x : K, 0 ≤ x → x ≤ 1 → env.pow x 5 ≤ 1)
    (hsq : 0 < dot (wi + wo) (wi + wo) → env.InvSqrtAt (dot (wi + wo) (wi + wo))) :
    (Material.f env m wi wo n).Nonneg :=
  Material.f_nonneg_of_inRange env wi wo n hwi hwo hdiv hpi hpow0 hpow1 hsq m hm

/-- Witness of C14: a blend of a coated diffuse material and a metal at normal
incidence, on the rational instance. -/
theorem material_f_nonneg_witness :
    (Material.LinearBlend (1 / 2 : ℚ) (.BlinnPhong 10 (1 / 25) (some (.Diffuse ⟨1, 1, 1⟩)))
        (.BlinnPhongMetal ⟨1, 1 / 2, 0⟩ 5 (1 / 2) none)).ParamsInRange ∧
      dot (⟨0, 1, 0⟩ : Vec3 ℚ) ⟨0, 1, 0⟩ = 1 ∧ ratEnv.ExactDiv ∧ 0 < ratEnv.pi ∧
      (∀ x e : ℚ, 0 ≤ x → 0 ≤ ratEnv.pow x e) ∧
      (∀ x : ℚ, 0 ≤ x → x ≤ 1 → ratEnv.pow x 5 ≤ 1) ∧
      ratEnv.InvSqrtAt
        (dot ((⟨0, 1, 0⟩ : Vec3 ℚ) + ⟨0, 1, 0⟩) ((⟨0, 1, 0⟩ : Vec3 ℚ) + ⟨0, 1, 0⟩)) ∧
      (Material.f ratEnv
        (.LinearBlend (1 / 2) (.BlinnPhong 10 (1 / 25) (some (.Diffuse ⟨1, 1, 1⟩)))
          (.BlinnPhongMetal ⟨1, 1 / 2, 0⟩ 5 (1 / 2) none))
        ⟨0, 1, 0⟩ ⟨0, 1, 0⟩ ⟨0, 1, 0⟩).Nonneg :=
  have hm : (Material.LinearBlend (1 / 2 : ℚ)
      (.BlinnPhong 10 (1 / 25) (some (.Diffuse ⟨1, 1, 1⟩)))
      (.BlinnPhongMetal ⟨1, 1 / 2, 0⟩ 5 (1 / 2) none)).ParamsInRange := by
    norm_num [Material.ParamsInRange, Material.LayerInRange, Vec3.Nonneg]
  ⟨hm, by norm_num [dot], ratEnv_exactDiv, ratEnv_pi_pos, ratEnv_pow_nonneg,
    ratEnv_pow_five_le_one, ratEnv_invSqrtAt_double,
    material_f_nonneg ratEnv _ ⟨0, 1, 0⟩ ⟨0, 1, 0⟩ ⟨0, 1, 0⟩ hm (by norm_num [dot]) (by norm_num [dot])
      ratEnv_exactDiv ratEnv_pi_pos ratEnv_pow_nonneg ratEnv_pow_five_le_one
      (fun _ => ratEnv_invSqrtAt_double)⟩

end NonNegative

/-! ## The direction written by the reflect branch -/

section ReflectBranch

variable {K R : Type} [LinearOrderedField K]

open Vec3

/-- For a unit `wh`, the sum of `wo` and `reflect(wo, wh)` is perpendicular to
`wh`, and so is whatever `normalize` makes of it. -/
theorem Env.normalize_reflect_add_orthogonal (env : Env K R) (wo wh : Vec3 K)
    (hwh : dot wh wh = 1) : dot (env.normalize (reflect wo wh + wo)) wh = 0 := by
  simp only [Env.normalize, reflect, dot, Vec3.add_def, Vec3.sub_def, Vec3.muls_def] at hwh ⊢
  generalize env.inversesqrt _ = c
  linear_combination
    (-2 * c * (wh.x * wo.x + wh.y * wo.y + wh.z * wo.z)) * hwh

theorem ratRoot_36_25 : ratRoot (36 / 25) = 6 / 5 := by
  have h36 : natRoot 36 = 6 := by decide
  have h25 : natRoot 25 = 5 := by decide
  have hnum : (36 / 25 : ℚ).num = 36 := by
    have h := Rat.num_div_eq_of_coprime (a := 36) (b := 25) (by norm_num) (by decide)
    simpa using h
  have hden : (36 / 25 : ℚ).den = 25 := by
    have h := Rat.den_div_eq_of_coprime (a := 36) (b := 25) (by norm_num) (by decide)
    have h2 : (((36 / 25 : ℚ).den : ℤ)) = 25 := by simpa using h
    exact_mod_cast h2
  rw [ratRoot, hnum, hden]
  simp [h36, h25]

/-- C18, the code at a failing input: shininess `0`, the unit vectors
`wo = (0.6, 0.8, 0)` and `n = (0, 1, 0)`, and the draws `0, 1, 0.25`.  The
drawn half-vector is `wh = (0, 1, 0)` with `dot(wo, wh) = 0.8 > 0`, the coin
selects the reflect branch, and the call writes
`wi = reflect(wo, wh) = (0.6, -0.8, 0)`, below the surface; the half-vector of
that `wi` and `wo` is `normalize(wi + wo) = (1, 0, 0)`, perpendicular to `wh`. -/
theorem sample_wi_reflect_half_vector_mismatch :
    dot (⟨3 / 5, 4 / 5, 0⟩ : Vec3 ℚ) ⟨3 / 5, 4 / 5, 0⟩ = 1 ∧
      BlinnPhong.drawn_wh ratEnv 0 ⟨0, 1, 0⟩ [0, 1, 1 / 4] = ⟨0, 1, 0⟩ ∧
      0 < dot (⟨3 / 5, 4 / 5, 0⟩ : Vec3 ℚ) ⟨0, 1, 0⟩ ∧
      BlinnPhong.coin ratEnv [0, 1, 1 / 4] < 1 / 2 ∧
      (Material.sample_wi ratEnv (.BlinnPhong 0 (4 / 100) none) ⟨9, 9, 9⟩ ⟨3 / 5, 4 / 5, 0⟩
          ⟨0, 1, 0⟩ (-7) [0, 1, 1 / 4]).map Sample.wi = some ⟨3 / 5, -4 / 5, 0⟩ ∧
      reflect (⟨3 / 5, 4 / 5, 0⟩ : Vec3 ℚ) ⟨0, 1, 0⟩ = ⟨3 / 5, -4 / 5, 0⟩ ∧
      ratEnv.normalize ((⟨3 / 5, -4 / 5, 0⟩ : Vec3 ℚ) + ⟨3 / 5, 4 / 5, 0⟩) = ⟨1, 0, 0⟩ := by
  have hcoin : BlinnPhong.coin ratEnv [0, 1, 1 / 4] < 1 / 2 := by
    norm_num [BlinnPhong.coin, BlinnPhong.rng_after_wh, ratEnv]
  have hr : reflect (⟨3 / 5, 4 / 5, 0⟩ : Vec3 ℚ) ⟨0, 1, 0⟩ = ⟨3 / 5, -4 / 5, 0⟩ := by
    simp only [reflect, dot, Vec3.sub_def, Vec3.muls_def]
    norm_num
  refine ⟨by norm_num [dot], ratEnv_drawn_wh _, by norm_num [dot], hcoin, ?_, hr, ?_⟩
  · rw [Material.sample_wi, BlinnPhong.sample_wi_reflect ratEnv _ _ _ _ _ _ _ _ _
      (by norm_num [dot]) hcoin, ratEnv_drawn_wh, hr]
    rfl
  · have hd : (3 / 5 + 3 / 5 : ℚ) * (3 / 5 + 3 / 5) + (-4 / 5 + 4 / 5) * (-4 / 5 + 4 / 5) +
        (0 + 0) * (0 + 0) = 36 / 25 := by norm_num
    simp only [Env.normalize, dot, Vec3.add_def, Vec3.muls_def, hd]
    norm_num [ratEnv, ratRoot_36_25]

end ReflectBranch

end pathtracer
